import Mathlib

/-!
Verification of the schedule-reflow scheduler (NestJS/TypeScript).

Shallow embedding conventions:
* `DateTime` values (Luxon) are embedded as `Int` instants: milliseconds since
  the Unix epoch.  ISO strings are parsed by the date library; the library is
  not part of the repository sources, so parsing and the shift-aware
  date-utils functions are modelled from the spec (see `CalendarCtx`).
* JavaScript `Map<string, T>` is embedded as an association list
  `List (String × T)` with insertion order as list order: `mapGet` returns the
  first binding, `mapSet` overwrites the first binding in place or appends.
* JavaScript `Set<string>` built from an array is `dedup` (first occurrences
  kept); `Set.add` is `addUnique` (append when absent).
* Result records carry the new schedule dates as instants (`Int`); the
  original dates are carried as the untouched input strings, exactly as the
  source copies them.
-/

/-- Decidable equality for `Except`, used to evaluate the scheduler on
concrete inputs. -/
instance {ε α : Type} [DecidableEq ε] [DecidableEq α] : DecidableEq (Except ε α) := fun a b =>
  match a, b with
  | .ok x, .ok y =>
      if h : x = y then isTrue (by rw [h]) else isFalse (fun hh => h (by cases hh; rfl))
  | .error x, .error y =>
      if h : x = y then isTrue (by rw [h]) else isFalse (fun hh => h (by cases hh; rfl))
  | .ok _, .error _ => isFalse (fun hh => Except.noConfusion hh)
  | .error _, .ok _ => isFalse (fun hh => Except.noConfusion hh)

/-- JS `Map.get`: the binding of the first matching key. -/
def mapGet (m : List (String × α)) (k : String) : Option α :=
  match m with
  | [] => none
  | (k', v) :: rest => if k' = k then some v else mapGet rest k

/-- JS `Map.set`: overwrite the first binding in place, else append. -/
def mapSet (m : List (String × α)) (k : String) (v : α) : List (String × α) :=
  match m with
  | [] => [(k, v)]
  | (k', v') :: rest => if k' = k then (k, v) :: rest else (k', v') :: mapSet rest k v

/-- Keys of an association list, in insertion order. -/
def mapKeys (m : List (String × α)) : List String :=
  m.map (·.1)

/-- Helper for `dedup`: drop elements already seen. -/
def dedupAux (seen : List String) : List String → List String
  | [] => []
  | x :: xs => if x ∈ seen then dedupAux seen xs else x :: dedupAux (seen ++ [x]) xs

/-- JS `new Set(array)` iterated in insertion order: first occurrences kept. -/
def dedup (l : List String) : List String :=
  dedupAux [] l

/-- JS `Set.add`: append when absent. -/
def addUnique (l : List String) (x : String) : List String :=
  if x ∈ l then l else l ++ [x]

/-- `src/reflow/types.ts` `WorkOrder.data`. -/
structure WorkOrderData where
  workOrderNumber : String
  workCenterId : String
  startDate : String
  endDate : String
  durationMinutes : Nat
  isMaintenance : Bool
  dependsOnWorkOrderIds : List String
deriving DecidableEq, Repr

/-- `src/reflow/types.ts` `WorkOrder`. -/
structure WorkOrder where
  docId : String
  data : WorkOrderData
deriving DecidableEq, Repr

/-- `src/reflow/types.ts` `ShiftDefinition`. -/
structure ShiftDefinition where
  dayOfWeek : Nat
  startHour : Nat
  endHour : Nat
deriving DecidableEq, Repr

/-- `src/reflow/types.ts` `MaintenanceWindow`. -/
structure MaintenanceWindow where
  startDate : String
  endDate : String
  reason : Option String
deriving DecidableEq, Repr

/-- `src/reflow/types.ts` `WorkCenter.data`. -/
structure WorkCenterData where
  name : String
  shifts : List ShiftDefinition
  maintenanceWindows : List MaintenanceWindow
deriving DecidableEq, Repr

/-- `src/reflow/types.ts` `WorkCenter`. -/
structure WorkCenter where
  docId : String
  data : WorkCenterData
deriving DecidableEq, Repr

/-- `src/reflow/types.ts` `ReflowResult`.  New dates are instants (see the
embedding conventions above); original dates are the copied input strings. -/
structure ReflowResult where
  workOrderId : String
  workOrderNumber : String
  originalStartDate : String
  originalEndDate : String
  newStartDate : Int
  newEndDate : Int
  wasRescheduled : Bool
  isFixed : Bool
deriving DecidableEq, Repr

/-- `src/reflow/types.ts` `ReflowOutput.metadata`. -/
structure ReflowMetadata where
  totalOrders : Nat
  rescheduledCount : Nat
  fixedCount : Nat
  processingTimeMs : Int
deriving DecidableEq, Repr

/-- `src/reflow/types.ts` `ReflowOutput`. -/
structure ReflowOutput where
  results : List ReflowResult
  warnings : List String
  metadata : ReflowMetadata
deriving DecidableEq, Repr

/-- The three error classes of `src/reflow/types.ts`, as one sum. -/
inductive SchedulerError where
  | circularDependency (cycle : List String)
  | missingDependency (workOrderId missingDependencyId : String)
  | missingWorkCenter (workOrderId workCenterId : String)
deriving DecidableEq, Repr

/-! ## The date library (modelled from the spec)

The repository's `src/utils/date-utils.ts` and the Luxon date library are not
among the source files; only the scheduler that calls them is.  Following the
spec (§4.1 Calendar Engine and §3 "All dates are stored as ISO strings in UTC
timezone"), the scheduler is parameterised over a `CalendarCtx`: the date
library already bound to the configured timezone. -/

/-- Numeric value of a decimal digit character. -/
def digitVal (c : Char) : Nat :=
  c.toNat - 48

/-- Two-digit decimal number. -/
def num2 (a b : Char) : Nat :=
  10 * digitVal a + digitVal b

/-- Four-digit decimal number. -/
def num4 (a b c d : Char) : Nat :=
  1000 * digitVal a + 100 * digitVal b + 10 * digitVal c + digitVal d

/-- Leap year in the Gregorian calendar. -/
def isLeapYear (y : Nat) : Bool :=
  (y % 4 == 0 && y % 100 != 0) || y % 400 == 0

/-- Days in the months strictly before month `m` (1-based). -/
def monthDaysBefore (leap : Bool) (m : Nat) : Nat :=
  let base :=
    match m with
    | 1 => 0 | 2 => 31 | 3 => 59 | 4 => 90 | 5 => 120 | 6 => 151
    | 7 => 181 | 8 => 212 | 9 => 243 | 10 => 273 | 11 => 304 | _ => 334
  if leap ∧ m > 2 then base + 1 else base

/-- Leap years in `[1, y)`. -/
def leapsBefore (y : Nat) : Nat :=
  (y - 1) / 4 - (y - 1) / 100 + (y - 1) / 400

/-- Days from 1970-01-01 to year `y`, month `m`, day `d` (valid for `y ≥ 1970`). -/
def daysSinceEpoch (y m d : Nat) : Nat :=
  365 * (y - 1970) + (leapsBefore y - leapsBefore 1970)
    + monthDaysBefore (isLeapYear y) m + (d - 1)

/-- Fraction (milliseconds) and offset (minutes) from the tail of an ISO string:
empty, `Z`, `.mmm`(`Z`|offset), or `±HH:MM`. -/
def parseIsoTail : List Char → Int × Int
  | [] => (0, 0)
  | ['Z'] => (0, 0)
  | ['+', o1, o2, ':', o3, o4] => (0, (num2 o1 o2 * 60 + num2 o3 o4 : Nat))
  | ['-', o1, o2, ':', o3, o4] => (0, -((num2 o1 o2 * 60 + num2 o3 o4 : Nat) : Int))
  | '.' :: f1 :: f2 :: f3 :: rest =>
      ((100 * digitVal f1 + 10 * digitVal f2 + digitVal f3 : Nat), (parseIsoTail rest).2)
  | _ => (0, 0)

/-- Modelled from the spec: `DateTime.fromISO` on an ISO-8601 string
(`YYYY-MM-DDTHH:MM:SS` with optional `.mmm` fraction and `Z`/`±HH:MM` offset),
as milliseconds since the Unix epoch.  Malformed strings give 0 (the scheduler
is only exercised on well-formed dates). -/
def parseISO (s : String) : Int :=
  match s.data with
  | y1 :: y2 :: y3 :: y4 :: '-' :: m1 :: m2 :: '-' :: d1 :: d2 :: 'T' ::
    h1 :: h2 :: ':' :: mi1 :: mi2 :: ':' :: s1 :: s2 :: rest =>
      let days := daysSinceEpoch (num4 y1 y2 y3 y4) (num2 m1 m2) (num2 d1 d2)
      let secs := ((days * 24 + num2 h1 h2) * 60 + num2 mi1 mi2) * 60 + num2 s1 s2
      let (ms, off) := parseIsoTail rest
      (secs * 1000 : Nat) + ms - off * 60000
  | _ => 0

/-- The date library bound to the scheduler's configured timezone.  `fromISO`
is Luxon's `DateTime.fromISO`; `findEarliestValidStart` and
`calculateEndDateWithShifts` are the two date-utils entry points the scheduler
calls (their source file is absent from the repository; the spec §4.1 defines
their contracts, which the theorems take as hypotheses where needed). -/
structure CalendarCtx where
  fromISO : String → Int
  findEarliestValidStart : Int → WorkCenter → Int
  calculateEndDateWithShifts : Int → Nat → WorkCenter → Int

/-- Modelled from the spec: the calendar engine for work centers whose shifts
cover every instant and which have no maintenance windows.  Per §4.1,
`findEarliestValidStart` then returns its argument unchanged and
`calculateEndDateWithShifts` advances by exactly `durationMinutes` minutes. -/
def openCtx : CalendarCtx where
  fromISO := parseISO
  findEarliestValidStart := fun t _ => t
  calculateEndDateWithShifts := fun s d _ => s + 60000 * (d : Int)

example : parseISO "2024-01-15T09:00:00Z" = parseISO "2024-01-15T09:00:00.000Z" := by decide
example : parseISO "2024-01-15T09:00:00Z" < parseISO "2024-01-15T01:00:00-10:00" := by decide
example : parseISO "2024-01-15T09:00:00Z" + 3600000 = parseISO "2024-01-15T10:00:00Z" := by decide
example : parseISO "2024-02-29T00:00:00Z" + 86400000 = parseISO "2024-03-01T00:00:00Z" := by decide

/-! ## Dependency graph (`dag.service.ts`) -/

/-- `dag.service.ts` `GraphNode`. -/
structure GraphNode where
  workOrder : WorkOrder
  dependencies : List String
  dependents : List String
  inDegree : Nat
deriving DecidableEq, Repr

/-- `dag.service.ts` `DependencyGraph`. -/
structure DependencyGraph where
  nodes : List (String × GraphNode)
  allIds : List String
deriving DecidableEq, Repr

/-- First pass of `buildDependencyGraph`: one node per order
(`dependencies` is `new Set(...)`, `inDegree` the raw array length). -/
def buildNodes (workOrders : List WorkOrder) : List (String × GraphNode) :=
  workOrders.foldl
    (fun m order =>
      mapSet m order.docId
        { workOrder := order
          dependencies := dedup order.data.dependsOnWorkOrderIds
          dependents := []
          inDegree := order.data.dependsOnWorkOrderIds.length })
    []

/-- One `depId` of the second pass of `buildDependencyGraph`: validate the
reference and add the reverse edge (`depNode.dependents.add(id)`). -/
def addEdgeStep (id : String)
    (acc : Except SchedulerError (List (String × GraphNode))) (depId : String) :
    Except SchedulerError (List (String × GraphNode)) :=
  acc.bind fun m2 =>
    match mapGet m2 depId with
    | none => .error (.missingDependency id depId)
    | some depNode =>
        .ok (mapSet m2 depId { depNode with dependents := addUnique depNode.dependents id })

/-- Second pass of `buildDependencyGraph`: validate each dependency reference
and add the reverse edge, failing with `MissingDependencyError`. -/
def addReverseEdges (entries : List (String × GraphNode))
    (m : List (String × GraphNode)) :
    Except SchedulerError (List (String × GraphNode)) :=
  match entries with
  | [] => .ok m
  | (id, node) :: rest =>
    (node.dependencies.foldl (addEdgeStep id) (.ok m)).bind fun m2 =>
      addReverseEdges rest m2

/-- `dag.service.ts` `buildDependencyGraph`. -/
def buildDependencyGraph (workOrders : List WorkOrder) :
    Except SchedulerError DependencyGraph :=
  let nodes := buildNodes workOrders
  let allIds := workOrders.map (·.docId)
  (addReverseEdges nodes nodes).map fun nodes2 => { nodes := nodes2, allIds := allIds }

/-- Lexicographic (codepoint) strict order on character lists. -/
def charListLt : List Char → List Char → Bool
  | [], [] => false
  | [], _ :: _ => true
  | _ :: _, [] => false
  | a :: as, b :: bs =>
      if a.toNat < b.toNat then true
      else if b.toNat < a.toNat then false
      else charListLt as bs

/-- String comparison standing in for JS `localeCompare` (codepoint order). -/
def strOrd (a b : String) : Ordering :=
  if charListLt a.data b.data then .lt
  else if charListLt b.data a.data then .gt
  else .eq

/-- The `readyQueue.sort` comparator of `topologicalSort`: by the work order's
`startDate` string, ties broken by id. -/
def cmpReady (nodes : List (String × GraphNode)) (a b : String) : Ordering :=
  let sa := ((mapGet nodes a).map (·.workOrder.data.startDate)).getD ""
  let sb := ((mapGet nodes b).map (·.workOrder.data.startDate)).getD ""
  match strOrd sa sb with
  | .eq => strOrd a b
  | c => c

/-- Stable insertion into a list sorted by `cmpReady`. -/
def insertReady (nodes : List (String × GraphNode)) (x : String) :
    List String → List String
  | [] => [x]
  | y :: ys =>
      if cmpReady nodes x y = .lt then x :: y :: ys else y :: insertReady nodes x ys

/-- JS `Array.prototype.sort` with the `cmpReady` comparator (stable). -/
def sortReady (nodes : List (String × GraphNode)) (queue : List String) : List String :=
  queue.foldl (fun acc x => insertReady nodes x acc) []

/-- The inner loop of `topologicalSort`: decrement each dependent's working
in-degree, enqueueing it when the in-degree reaches 0. -/
def processDependents (dependents : List String)
    (inDegrees : List (String × Int)) (queue : List String) :
    List (String × Int) × List String :=
  match dependents with
  | [] => (inDegrees, queue)
  | t :: ts =>
    let n := ((mapGet inDegrees t).getD 0) - 1
    let inDegrees2 := mapSet inDegrees t n
    let queue2 := if n = 0 then queue ++ [t] else queue
    processDependents ts inDegrees2 queue2

/-- Fuel bound for `kahnLoop`: total positive in-degree plus queue length. -/
def sumDeg (inDegrees : List (String × Int)) : Nat :=
  (inDegrees.map (fun p => p.2.toNat)).sum

/-- The `while (readyQueue.length > 0)` loop of `topologicalSort`.  Each
iteration sorts the ready queue, pops the smallest entry, appends its work
order and processes its dependents.  `fuel` only bounds the iteration count;
`sumDeg inDegrees + queue.length + 1` provably suffices
(`kahnLoop_fuel_irrelevant`). -/
def kahnLoop (nodes : List (String × GraphNode)) :
    Nat → List (String × Int) → List String → List WorkOrder →
    List (String × Int) × List WorkOrder
  | 0, inDegrees, _queue, result => (inDegrees, result)
  | fuel + 1, inDegrees, queue, result =>
    match sortReady nodes queue with
    | [] => (inDegrees, result)
    | currentId :: rest =>
      match mapGet nodes currentId with
      | none => (inDegrees, result)
      | some node =>
        let pd := processDependents node.dependents inDegrees rest
        kahnLoop nodes fuel pd.1 pd.2 (result ++ [node.workOrder])

/-- One DFS step of `findCycle`: returns the first cycle found, threading the
visited set, the recursion stack and the path. -/
def dfsCycle (nodes : List (String × GraphNode)) :
    Nat → String → List String → List String → List String →
    Option (List String) × List String × List String × List String
  | 0, _, visited, stack, path => (none, visited, stack, path)
  | fuel + 1, nodeId, visited, stack, path =>
    let visited := addUnique visited nodeId
    let stack := addUnique stack nodeId
    let path := path ++ [nodeId]
    match mapGet nodes nodeId with
    | none => (none, visited, stack, path)
    | some node =>
      let scan :=
        node.dependencies.foldl
          (fun (st : Option (List String) × List String × List String × List String) depId =>
            match st with
            | (some c, v, s, p) => (some c, v, s, p)
            | (none, v, s, p) =>
              if depId ∈ v then
                if depId ∈ s then
                  (some ((p.dropWhile (· ≠ depId)) ++ [depId]), v, s, p)
                else (none, v, s, p)
              else dfsCycle nodes fuel depId v s p)
          (none, visited, stack, path)
      match scan with
      | (some c, v, s, p) => (some c, v, s, p)
      | (none, v, s, p) => (none, v, s.filter (· ≠ nodeId), p.dropLast)

/-- `dag.service.ts` `findCycle`. -/
def findCycle (graph : DependencyGraph) (remaining : List (String × Int)) :
    List String :=
  let unprocessed := (remaining.filter (fun p => 0 < p.2)).map (·.1)
  match unprocessed with
  | [] => ["unknown cycle"]
  | startNode :: _ =>
    match (dfsCycle graph.nodes (graph.nodes.length + 1) startNode [] [] []).1 with
    | some cycle => cycle
    | none => [startNode, "...", startNode]

/-- `dag.service.ts` `topologicalSort` (Kahn's algorithm with the sorted ready
queue); `CircularDependencyError` carries the `findCycle` witness. -/
def topologicalSort (graph : DependencyGraph) :
    Except SchedulerError (List WorkOrder) :=
  let inDegrees := graph.nodes.map (fun p => (p.1, (p.2.inDegree : Int)))
  let readyQueue := (inDegrees.filter (fun p => p.2 = 0)).map (·.1)
  let pair := kahnLoop graph.nodes (sumDeg inDegrees + readyQueue.length + 1)
    inDegrees readyQueue []
  if pair.2.length = graph.nodes.length then .ok pair.2
  else .error (.circularDependency (findCycle graph pair.1))

/-! ## Scheduler service (`scheduler.service.ts`) -/

/-- The `SchedulerService` constructor's work-center index:
`new Map(workCenters.map(wc => [wc.docId, wc]))`. -/
def buildWorkCenterIndex (workCenters : List WorkCenter) : List (String × WorkCenter) :=
  workCenters.foldl (fun m wc => mapSet m wc.docId wc) []

/-- Stand-in for the source's non-null assertion on a work-center lookup;
`reflow` validates every lookup before scheduling, so this value is never
reached there. -/
def defaultWorkCenter : WorkCenter :=
  { docId := "", data := { name := "", shifts := [], maintenanceWindows := [] } }

/-- `validateWorkCenters`: the first order whose work center is unknown,
with its work-center id (the source throws `MissingWorkCenterError` there). -/
def validateWorkCenters (wcIndex : List (String × WorkCenter)) :
    List WorkOrder → Option (String × String)
  | [] => none
  | order :: rest =>
    if (mapGet wcIndex order.data.workCenterId).isNone then
      some (order.docId, order.data.workCenterId)
    else validateWorkCenters wcIndex rest

/-- Modelled from the spec: date-utils `maxDateTime` returns the latest of the
given instants, or nothing for an empty list. -/
def maxDateTime : List Int → Option Int
  | [] => none
  | d :: ds => some (ds.foldl max d)

/-- `calculateEarliestStart`: the constraints array (original start unless
`allowEarlierStart`, machine availability, recorded dependency ends) reduced
by `maxDateTime`, falling back to `DateTime.now()` (the `now` argument). -/
def calculateEarliestStart (ctx : CalendarCtx) (allowEarlierStart : Bool)
    (now : Int) (order : WorkOrder)
    (workCenterAvailability workOrderEndTimes : List (String × Int)) : Int :=
  let c1 : List Int :=
    if allowEarlierStart then [] else [ctx.fromISO order.data.startDate]
  let c2 : List Int :=
    match mapGet workCenterAvailability order.data.workCenterId with
    | some a => [a]
    | none => []
  let c3 : List Int :=
    order.data.dependsOnWorkOrderIds.filterMap (fun depId => mapGet workOrderEndTimes depId)
  match maxDateTime (c1 ++ c2 ++ c3) with
  | some m => m
  | none => now

/-- The mutable state `scheduleWorkOrder` threads: the two trackers, the
accumulated warnings and the accumulated results. -/
structure SchedState where
  workCenterAvailability : List (String × Int)
  workOrderEndTimes : List (String × Int)
  warnings : List String
  results : List ReflowResult
deriving DecidableEq, Repr

/-- `Math.round` of a positive millisecond difference expressed in minutes. -/
def roundedMinutes (diffMs : Int) : Nat :=
  (2 * diffMs.toNat + 60000) / 120000

/-- The delay warning `scheduleWorkOrder` pushes. -/
def delayWarning (workOrderNumber : String) (minutes : Nat) : String :=
  s!"Work order \"{workOrderNumber}\" delayed by {minutes} minutes"

/-- `scheduleWorkOrder`: schedule one order, updating the trackers, results
and warnings.  Maintenance orders are returned fixed; other orders start at
`findEarliestValidStart` of their earliest constraint and end after a
shift-aware duration walk. -/
def scheduleWorkOrder (ctx : CalendarCtx) (wcIndex : List (String × WorkCenter))
    (allowEarlierStart : Bool) (now : Int) (st : SchedState) (order : WorkOrder) :
    SchedState :=
  let workCenter := (mapGet wcIndex order.data.workCenterId).getD defaultWorkCenter
  let originalStart := ctx.fromISO order.data.startDate
  let originalEnd := ctx.fromISO order.data.endDate
  if order.data.isMaintenance then
    let avail :=
      match mapGet st.workCenterAvailability order.data.workCenterId with
      | none => mapSet st.workCenterAvailability order.data.workCenterId originalEnd
      | some current =>
        if current < originalEnd then
          mapSet st.workCenterAvailability order.data.workCenterId originalEnd
        else st.workCenterAvailability
    { st with
      workCenterAvailability := avail
      workOrderEndTimes := mapSet st.workOrderEndTimes order.docId originalEnd
      results := st.results ++
        [{ workOrderId := order.docId
           workOrderNumber := order.data.workOrderNumber
           originalStartDate := order.data.startDate
           originalEndDate := order.data.endDate
           newStartDate := originalStart
           newEndDate := originalEnd
           wasRescheduled := false
           isFixed := true }] }
  else
    let earliestStart := calculateEarliestStart ctx allowEarlierStart now order
      st.workCenterAvailability st.workOrderEndTimes
    let validStart := ctx.findEarliestValidStart earliestStart workCenter
    let newEnd := ctx.calculateEndDateWithShifts validStart order.data.durationMinutes workCenter
    let wasRescheduled : Bool := validStart != originalStart || newEnd != originalEnd
    let warnings :=
      if wasRescheduled ∧ originalStart < validStart then
        st.warnings ++
          [delayWarning order.data.workOrderNumber (roundedMinutes (validStart - originalStart))]
      else st.warnings
    { workCenterAvailability := mapSet st.workCenterAvailability order.data.workCenterId newEnd
      workOrderEndTimes := mapSet st.workOrderEndTimes order.docId newEnd
      warnings := warnings
      results := st.results ++
        [{ workOrderId := order.docId
           workOrderNumber := order.data.workOrderNumber
           originalStartDate := order.data.startDate
           originalEndDate := order.data.endDate
           newStartDate := validStart
           newEndDate := newEnd
           wasRescheduled := wasRescheduled
           isFixed := false }] }

/-- `SchedulerService.reflow`.  `now` stands for the per-order
`DateTime.now()` fallback, `procMs` for the wall-clock `processingTimeMs`. -/
def reflow (ctx : CalendarCtx) (wcIndex : List (String × WorkCenter))
    (allowEarlierStart : Bool) (now procMs : Int) (workOrders : List WorkOrder) :
    Except SchedulerError ReflowOutput :=
  match validateWorkCenters wcIndex workOrders with
  | some (orderId, wcId) => .error (.missingWorkCenter orderId wcId)
  | none =>
    (buildDependencyGraph workOrders).bind fun graph =>
    (topologicalSort graph).bind fun sortedOrders =>
    let final := sortedOrders.foldl (scheduleWorkOrder ctx wcIndex allowEarlierStart now)
      { workCenterAvailability := [], workOrderEndTimes := [], warnings := [], results := [] }
    .ok
      { results := final.results
        warnings := final.warnings
        metadata :=
          { totalOrders := workOrders.length
            rescheduledCount := (final.results.filter (·.wasRescheduled)).length
            fixedCount := (final.results.filter (·.isFixed)).length
            processingTimeMs := procMs } }

/-- `SchedulerService.rescheduleOrder`: replace the start date of the orders
whose `docId` matches and run a full reflow. -/
def rescheduleOrder (ctx : CalendarCtx) (wcIndex : List (String × WorkCenter))
    (allowEarlierStart : Bool) (now procMs : Int)
    (workOrderId newStartDate : String) (allOrders : List WorkOrder) :
    Except SchedulerError ReflowOutput :=
  let updatedOrders := allOrders.map fun order =>
    if order.docId = workOrderId then
      { order with data := { order.data with startDate := newStartDate } }
    else order
  reflow ctx wcIndex allowEarlierStart now procMs updatedOrders

/-! ## `validateDependencies` (`dag.service.ts`) -/

/-- The message of a self-dependency validation error. -/
def selfDependencyMessage (workOrderNumber workOrderId : String) : String :=
  s!"Work order \"{workOrderNumber}\" ({workOrderId}) depends on itself"

/-- The message of a missing-reference validation error. -/
def missingReferenceMessage (workOrderNumber workOrderId depId : String) : String :=
  s!"Work order \"{workOrderNumber}\" ({workOrderId}) depends on non-existent order \"{depId}\""

/-- `CircularDependencyError.message`. -/
def circularDependencyMessage (cycle : List String) : String :=
  let joined := String.intercalate " -> " cycle
  s!"Circular dependency detected: {joined}"

/-- `MissingDependencyError.message`. -/
def missingDependencyMessage (workOrderId depId : String) : String :=
  s!"Work order \"{workOrderId}\" depends on non-existent order \"{depId}\""

/-- One dependency id of the first `validateDependencies` pass: append a
self-dependency or missing-reference message when the checks fire. -/
def basicErrStep (orderIds : List String) (order : WorkOrder)
    (errs2 : List String) (depId : String) : List String :=
  if depId = order.docId then
    errs2 ++ [selfDependencyMessage order.data.workOrderNumber order.docId]
  else if depId ∈ orderIds then errs2
  else errs2 ++ [missingReferenceMessage order.data.workOrderNumber order.docId depId]

/-- The first pass of `validateDependencies`: self-dependency and
missing-reference messages, in input order. -/
def basicDependencyErrors (workOrders : List WorkOrder) : List String :=
  let orderIds := workOrders.map (·.docId)
  workOrders.foldl
    (fun errs order =>
      order.data.dependsOnWorkOrderIds.foldl (basicErrStep orderIds order) errs)
    []

/-- `dag.service.ts` `validateDependencies`: non-throwing pre-flight.  The
cycle check (a full graph build and topological sort) runs only when the
first pass produced no errors. -/
def validateDependencies (workOrders : List WorkOrder) : Bool × List String :=
  let errors := basicDependencyErrors workOrders
  let errors2 :=
    if errors.isEmpty then
      match (buildDependencyGraph workOrders).bind topologicalSort with
      | .ok _ => errors
      | .error (.circularDependency c) => errors ++ [circularDependencyMessage c]
      | .error (.missingDependency a b) => errors ++ [missingDependencyMessage a b]
      | .error (.missingWorkCenter _ _) => errors
    else errors
  (errors2.isEmpty, errors2)

/-! ## The mathematical dependency relation -/

/-- Ids directly depended on by the orders of `frontier`. -/
def depStep (workOrders : List WorkOrder) (frontier : List String) : List String :=
  (workOrders.filter (fun o => o.docId ∈ frontier)).flatMap
    (fun o => o.data.dependsOnWorkOrderIds)

/-- Ids reachable from `acc` through `n` rounds of dependency edges. -/
def depReach (workOrders : List WorkOrder) : Nat → List String → List String
  | 0, acc => acc
  | n + 1, acc => depReach workOrders n (dedup (acc ++ depStep workOrders acc))

/-- The declared dependency relation has a cycle: some order is reachable
from its own dependencies. -/
def hasCycle (workOrders : List WorkOrder) : Bool :=
  workOrders.any fun o =>
    o.docId ∈ depReach workOrders workOrders.length (dedup o.data.dependsOnWorkOrderIds)

/-! ## Derived definitions used by the theorems -/

/-- A reflow output with `processingTimeMs` cleared: what the spec's
determinism clause says must coincide across runs. -/
def eraseProcessingTime (out : ReflowOutput) : ReflowOutput :=
  { out with metadata := { out.metadata with processingTimeMs := 0 } }

/-- The claim's description of `rescheduleOrder`'s input transformation:
the orders whose `docId` equals `workOrderId` get `data.startDate` replaced by
`newStartDate`; every other field and every other order is unchanged. -/
def updateOrderStartSpec (workOrderId newStartDate : String)
    (allOrders : List WorkOrder) : List WorkOrder :=
  allOrders.map fun order =>
    if order.docId = workOrderId then
      { order with data := { order.data with startDate := newStartDate } }
    else order

/-- The ready-pool key of `topologicalSort`'s comparator, as the source
computes it: the order's raw `startDate` string, then the id. -/
def readyKey (nodes : List (String × GraphNode)) (id : String) : String × String :=
  (((mapGet nodes id).map (·.workOrder.data.startDate)).getD "", id)

/-! ## Concrete inputs used by counterexamples and witnesses -/

/-- A work center with no shifts; the spec-modelled `openCtx` never reads it. -/
def wcMachine1 : WorkCenter :=
  ⟨"wc-1", ⟨"Machine 1", [], []⟩⟩

/-- Work-center index holding only `wc-1`. -/
def wcIndex1 : List (String × WorkCenter) :=
  buildWorkCenterIndex [wcMachine1]

/-- C1: a maintenance order `X` declaring a dependency on `D`, whose fixed
start (08:00) lies before `D`'s end (10:00). -/
def c1orders : List WorkOrder :=
  [⟨"D", ⟨"WO-D", "wc-1", "2024-01-15T00:00:00.000Z", "2024-01-15T10:00:00.000Z", 600, true, []⟩⟩,
   ⟨"X", ⟨"WO-X", "wc-1", "2024-01-15T08:00:00.000Z", "2024-01-15T09:00:00.000Z", 60, true, ["D"]⟩⟩]

/-- C3: `A` lists the existing order `B` twice among its dependencies; the
dependency relation is acyclic. -/
def c3orders : List WorkOrder :=
  [⟨"A", ⟨"WO-A", "wc-1", "2024-01-15T00:00:00.000Z", "2024-01-15T01:00:00.000Z", 60, false, ["B", "B"]⟩⟩,
   ⟨"B", ⟨"WO-B", "wc-1", "2024-01-15T00:00:00.000Z", "2024-01-15T01:00:00.000Z", 60, false, []⟩⟩]

/-- C4: one order with no dependencies on a fresh machine; with
`allowEarlierStart` its earliest start falls back to `DateTime.now()`. -/
def c4orders : List WorkOrder :=
  [⟨"F", ⟨"WO-F", "wc-1", "2024-01-15T09:00:00.000Z", "2024-01-15T10:00:00.000Z", 60, false, []⟩⟩]

/-- C6: order `z`'s start string carries a `-10:00` offset, so it denotes the
later instant (11:00Z) yet compares smaller as a string than `a`'s `09:00Z`. -/
def c6orders : List WorkOrder :=
  [⟨"z", ⟨"WO-Z", "wc-1", "2024-01-15T01:00:00-10:00", "2024-01-15T12:00:00Z", 60, false, []⟩⟩,
   ⟨"a", ⟨"WO-A", "wc-1", "2024-01-15T09:00:00Z", "2024-01-15T10:00:00Z", 60, false, []⟩⟩]

/-- C9 (first part): a self-dependency on `A` together with the cycle
`B -> C -> B`. -/
def c9ordersA : List WorkOrder :=
  [⟨"A", ⟨"WO-A", "wc-1", "2024-01-15T00:00:00.000Z", "2024-01-15T01:00:00.000Z", 60, false, ["A"]⟩⟩,
   ⟨"B", ⟨"WO-B", "wc-1", "2024-01-15T00:00:00.000Z", "2024-01-15T01:00:00.000Z", 60, false, ["C"]⟩⟩,
   ⟨"C", ⟨"WO-C", "wc-1", "2024-01-15T00:00:00.000Z", "2024-01-15T01:00:00.000Z", 60, false, ["B"]⟩⟩]

/-- C9 (second part): the duplicate-dependency input of C3; acyclic, and the
first validation pass finds nothing wrong with it. -/
def c9ordersB : List WorkOrder :=
  c3orders

/-- Placeholder output outside the success branch. -/
def emptyOutput : ReflowOutput :=
  ⟨[], [], ⟨0, 0, 0, 0⟩⟩

/-- Placeholder result record. -/
def junkResult : ReflowResult :=
  ⟨"", "", "", "", 0, 0, false, false⟩

/-- Placeholder graph node. -/
def junkNode : GraphNode :=
  ⟨⟨"", ⟨"", "", "", "", 0, false, []⟩⟩, [], [], 0⟩

/-- The empty scheduling state `reflow` starts from. -/
def emptySchedState : SchedState :=
  ⟨[], [], [], []⟩

/-- Witness input: `b` depends on `a`; both non-maintenance on `wc-1`, both
originally at 09:00–10:00. -/
def wOrders : List WorkOrder :=
  [⟨"b", ⟨"WO-B", "wc-1", "2024-01-15T09:00:00.000Z", "2024-01-15T10:00:00.000Z", 60, false, ["a"]⟩⟩,
   ⟨"a", ⟨"WO-A", "wc-1", "2024-01-15T09:00:00.000Z", "2024-01-15T10:00:00.000Z", 60, false, []⟩⟩]

/-- The dependency graph of `wOrders`. -/
def wGraph : DependencyGraph :=
  ((buildDependencyGraph wOrders).toOption).getD ⟨[], []⟩

/-- The reflow output on `wOrders` under the spec-modelled open calendar. -/
def wOut : ReflowOutput :=
  ((reflow openCtx wcIndex1 false 0 0 wOrders).toOption).getD emptyOutput

/-- First result of `wOut` (order `a`). -/
def wResA : ReflowResult :=
  wOut.results.getD 0 junkResult

/-- Second result of `wOut` (order `b`). -/
def wResB : ReflowResult :=
  wOut.results.getD 1 junkResult

/-- Graph node behind `wResA`. -/
def wNodeA : GraphNode :=
  (mapGet wGraph.nodes wResA.workOrderId).getD junkNode

/-- Graph node behind `wResB`. -/
def wNodeB : GraphNode :=
  (mapGet wGraph.nodes wResB.workOrderId).getD junkNode

/-- Witness maintenance order for the fixed-order claim. -/
def wMaintOrder : WorkOrder :=
  ⟨"M", ⟨"WO-M", "wc-1", "2024-01-15T02:00:00.000Z", "2024-01-15T04:00:00.000Z", 120, true, ["D"]⟩⟩

/-- The `validStart` a non-maintenance order receives in `scheduleWorkOrder`. -/
def schedValidStart (ctx : CalendarCtx) (wcIndex : List (String × WorkCenter))
    (allowEarlierStart : Bool) (now : Int) (st : SchedState) (order : WorkOrder) : Int :=
  ctx.findEarliestValidStart
    (calculateEarliestStart ctx allowEarlierStart now order
      st.workCenterAvailability st.workOrderEndTimes)
    ((mapGet wcIndex order.data.workCenterId).getD defaultWorkCenter)

/-- The `newEnd` a non-maintenance order receives in `scheduleWorkOrder`. -/
def schedNewEnd (ctx : CalendarCtx) (wcIndex : List (String × WorkCenter))
    (allowEarlierStart : Bool) (now : Int) (st : SchedState) (order : WorkOrder) : Int :=
  ctx.calculateEndDateWithShifts (schedValidStart ctx wcIndex allowEarlierStart now st order)
    order.data.durationMinutes
    ((mapGet wcIndex order.data.workCenterId).getD defaultWorkCenter)

/-- The `wasRescheduled` flag of a non-maintenance order. -/
def schedWasRescheduled (ctx : CalendarCtx) (wcIndex : List (String × WorkCenter))
    (allowEarlierStart : Bool) (now : Int) (st : SchedState) (order : WorkOrder) : Bool :=
  schedValidStart ctx wcIndex allowEarlierStart now st order != ctx.fromISO order.data.startDate ||
  schedNewEnd ctx wcIndex allowEarlierStart now st order != ctx.fromISO order.data.endDate

/-- The result record `scheduleWorkOrder` appends for a maintenance order. -/
def maintResult (ctx : CalendarCtx) (order : WorkOrder) : ReflowResult :=
  { workOrderId := order.docId
    workOrderNumber := order.data.workOrderNumber
    originalStartDate := order.data.startDate
    originalEndDate := order.data.endDate
    newStartDate := ctx.fromISO order.data.startDate
    newEndDate := ctx.fromISO order.data.endDate
    wasRescheduled := false
    isFixed := true }

/-- The result record `scheduleWorkOrder` appends for a non-maintenance order. -/
def normalResult (ctx : CalendarCtx) (wcIndex : List (String × WorkCenter))
    (allowEarlierStart : Bool) (now : Int) (st : SchedState) (order : WorkOrder) :
    ReflowResult :=
  { workOrderId := order.docId
    workOrderNumber := order.data.workOrderNumber
    originalStartDate := order.data.startDate
    originalEndDate := order.data.endDate
    newStartDate := schedValidStart ctx wcIndex allowEarlierStart now st order
    newEndDate := schedNewEnd ctx wcIndex allowEarlierStart now st order
    wasRescheduled := schedWasRescheduled ctx wcIndex allowEarlierStart now st order
    isFixed := false }

/-- The availability tracker after a maintenance order: pushed to the
maintenance end when that is later than the current availability. -/
def maintAvail (ctx : CalendarCtx) (st : SchedState) (order : WorkOrder) :
    List (String × Int) :=
  match mapGet st.workCenterAvailability order.data.workCenterId with
  | none => mapSet st.workCenterAvailability order.data.workCenterId
      (ctx.fromISO order.data.endDate)
  | some current =>
    if current < ctx.fromISO order.data.endDate then
      mapSet st.workCenterAvailability order.data.workCenterId
        (ctx.fromISO order.data.endDate)
    else st.workCenterAvailability

/-- The binding `scheduleWorkOrder` maintains between a result entry and the
work order that produced it, relative to the current state: matching ids and
fixedness, the recorded end time, an availability that dominates the end, and
a start no earlier than every recorded dependency end. -/
def SchedPair (st : SchedState) (r : ReflowResult) (o : WorkOrder) : Prop :=
  r.workOrderId = o.docId ∧
  r.isFixed = o.data.isMaintenance ∧
  mapGet st.workOrderEndTimes o.docId = some r.newEndDate ∧
  (o.data.isMaintenance = false →
    (∃ v, mapGet st.workCenterAvailability o.data.workCenterId = some v ∧
      r.newEndDate ≤ v) ∧
    ∀ d ∈ o.data.dependsOnWorkOrderIds, ∀ e,
      mapGet st.workOrderEndTimes d = some e → e ≤ r.newStartDate)

/-- The invariant of the scheduling fold of `reflow`: results align one-to-one
and in order with the processed orders, each paired by `SchedPair`; recorded
end times belong to processed orders; dependencies of processed orders are
processed; and non-maintenance results on a shared work center are disjoint
in processing order. -/
def SchedInv (st : SchedState) (processed : List WorkOrder) : Prop :=
  st.results.map (·.workOrderId) = processed.map (·.docId) ∧
  (∀ r ∈ st.results, ∃ o ∈ processed, SchedPair st r o) ∧
  (∀ k, (mapGet st.workOrderEndTimes k).isSome → k ∈ processed.map (·.docId)) ∧
  (∀ o ∈ processed, ∀ d ∈ o.data.dependsOnWorkOrderIds, d ∈ processed.map (·.docId)) ∧
  (∀ pre r1 mid r2 suf, st.results = pre ++ r1 :: mid ++ r2 :: suf →
    ∀ o1 ∈ processed, ∀ o2 ∈ processed,
    r1.workOrderId = o1.docId → r2.workOrderId = o2.docId →
    o1.data.isMaintenance = false → o2.data.isMaintenance = false →
    o1.data.workCenterId = o2.data.workCenterId →
    r1.newEndDate ≤ r2.newStartDate)

/-- The well-formedness facts of a built graph's node map (established below
as `buildDependencyGraph_ok_wf`); the Kahn-loop analysis assumes them. -/
def WFNodes (nodes : List (String × GraphNode)) : Prop :=
  (mapKeys nodes).Nodup ∧
  ∀ k nd, mapGet nodes k = some nd →
    nd.workOrder.docId = k ∧
    nd.dependencies = dedup nd.workOrder.data.dependsOnWorkOrderIds ∧
    nd.inDegree = nd.workOrder.data.dependsOnWorkOrderIds.length ∧
    nd.dependencies.Nodup ∧
    nd.dependents.Nodup ∧
    (∀ d ∈ nd.dependencies, (mapGet nodes d).isSome) ∧
    (∀ t ∈ nd.dependents, ∃ tn, mapGet nodes t = some tn ∧ k ∈ tn.dependencies)

/-- What the Kahn loop guarantees about its accumulated result: ids are
distinct, every entry is the work order of its node, and every dependency of
an entry was appended strictly before it. -/
def KahnPost (nodes : List (String × GraphNode)) (result : List WorkOrder) : Prop :=
  ((result.map (·.docId)).Nodup) ∧
  (∀ x ∈ result, ∃ nd, mapGet nodes x.docId = some nd ∧ nd.workOrder = x) ∧
  (∀ pre x suf, result = pre ++ x :: suf → ∀ nd, mapGet nodes x.docId = some nd →
    ∀ d ∈ nd.dependencies, d ∈ pre.map (·.docId))

/-- The `kahnLoop` invariant: the accumulated result satisfies `KahnPost`;
queue entries are distinct unprocessed resolvable ids; every node's working
in-degree is at least its raw in-degree minus its processed dependencies; and
queued nodes have working in-degree 0 with all dependencies processed. -/
def KahnInv (nodes : List (String × GraphNode)) (inDegrees : List (String × Int))
    (queue : List String) (result : List WorkOrder) : Prop :=
  KahnPost nodes result ∧
  queue.Nodup ∧
  (∀ q ∈ queue, (mapGet nodes q).isSome) ∧
  (∀ q ∈ queue, q ∉ result.map (·.docId)) ∧
  (∀ k nd, mapGet nodes k = some nd → ∃ v : Int, mapGet inDegrees k = some v ∧
    (nd.workOrder.data.dependsOnWorkOrderIds.length : Int) -
      ((nd.dependencies.filter (fun d => d ∈ result.map (·.docId))).length : Int) ≤ v) ∧
  (∀ q ∈ queue, mapGet inDegrees q = some 0 ∧
    ∀ nd, mapGet nodes q = some nd → ∀ d ∈ nd.dependencies, d ∈ result.map (·.docId))

/-! ## Theorems -/

/-- C3: the code throws `CircularDependencyError` on `c3orders` (order `A`
listing its existing dependency `B` twice) although the dependency relation
has no cycle: `inDegree` counts the raw `dependsOnWorkOrderIds` array while
edges are deduplicated through a `Set`, so `A`'s working in-degree can never
drain to 0.  This contradicts the function's own documentation ("@throws
CircularDependencyError if the graph contains cycles"). -/
theorem topologicalSort_spurious_cycle_on_duplicate_dependency :
    (buildDependencyGraph c3orders).bind topologicalSort =
      Except.error (SchedulerError.circularDependency ["A", "...", "A"]) ∧
    hasCycle c3orders = false := by
  decide

/-- C1 counterexample: on `c1orders` the reflow succeeds, `X` declares the
dependency `D`, and yet `newStart(X) < newEnd(D)`: `X` is a maintenance order,
and the maintenance branch of `scheduleWorkOrder` keeps the original dates
without consulting the dependency tracker. -/
theorem reflow_maintenance_ignores_dependency_end :
    (match reflow openCtx wcIndex1 false 0 0 c1orders with
     | Except.ok out =>
       match out.results with
       | [d, x] =>
         d.workOrderId == "D" && x.workOrderId == "X" && x.isFixed &&
           decide (x.newStartDate < d.newEndDate)
       | _ => false
     | Except.error _ => false) = true := by
  decide

/-- C4 counterexample: with `allowEarlierStart = true` and an order with no
dependencies on a fresh machine, `calculateEarliestStart` has no constraints
and falls back to `DateTime.now()`, so two runs at different wall-clock
instants differ in `results` — not only in `processingTimeMs`. -/
theorem reflow_now_fallback_not_deterministic :
    Except.map eraseProcessingTime (reflow openCtx wcIndex1 true 0 0 c4orders) ≠
      Except.map eraseProcessingTime (reflow openCtx wcIndex1 true 3600000 0 c4orders) := by
  decide

/-- C6 counterexample: on `c6orders` both orders sit in the initial ready
pool; `a`'s start (09:00Z) is the strictly smaller instant and `a` is also
the smaller id, yet the sort appends `z` first, because the comparator
compares the raw ISO strings (`localeCompare`) and `z`'s `-10:00`-offset
string sorts below `a`'s `Z`-suffixed string. -/
theorem topologicalSort_compares_strings_not_instants :
    ((buildDependencyGraph c6orders).bind topologicalSort).map (fun l => l.map (·.docId)) =
      Except.ok ["z", "a"] ∧
    parseISO "2024-01-15T09:00:00Z" < parseISO "2024-01-15T01:00:00-10:00" := by
  decide

/-- C9 counterexample.  First part: on `c9ordersA` (a self-dependency on `A`
plus the cycle `B -> C -> B`) `validateDependencies` reports a single error —
the cycle check is skipped whenever the first pass found anything, so the
cycle error the claim requires is absent.  Second part: on `c9ordersB`
(duplicate dependency entries, acyclic) `validateDependencies` returns
`isValid = false` although every reference resolves, nothing depends on
itself, and the graph is acyclic. -/
theorem validateDependencies_skips_cycle_check_and_flags_acyclic_input :
    (validateDependencies c9ordersA).2.length = 1 ∧
    ((validateDependencies c9ordersB).1 = false ∧ hasCycle c9ordersB = false) := by
  decide

/-- `mapSet` then `mapGet` at the same key. -/
theorem mapGet_mapSet_self (m : List (String × α)) (k : String) (v : α) :
    mapGet (mapSet m k v) k = some v := by
  induction m with
  | nil => simp [mapSet, mapGet]
  | cons p rest ih =>
    obtain ⟨k', v'⟩ := p
    by_cases h : k' = k
    · simp [mapSet, mapGet, h]
    · simp [mapSet, mapGet, h, ih]

/-- `mapSet` leaves other keys untouched. -/
theorem mapGet_mapSet_ne (m : List (String × α)) (k q : String) (v : α)
    (h : q ≠ k) : mapGet (mapSet m k v) q = mapGet m q := by
  induction m with
  | nil =>
    simp only [mapSet, mapGet]
    rw [if_neg (fun hh => h hh.symm)]
  | cons p rest ih =>
    obtain ⟨k', v'⟩ := p
    by_cases hk : k' = k
    · simp only [mapSet, if_pos hk, mapGet, hk]
      rw [if_neg (fun hh => h hh.symm), if_neg (fun hh => h hh.symm)]
    · simp only [mapSet, if_neg hk, mapGet]
      by_cases hq : k' = q
      · rw [if_pos hq, if_pos hq]
      · rw [if_neg hq, if_neg hq]
        exact ih

/-- C10: `rescheduleOrder` is exactly `reflow` on the input with the matching
orders' `startDate` replaced (`updateOrderStartSpec`), and when no order's
`docId` matches it coincides with `reflow` on the unchanged input. -/
theorem rescheduleOrder_refines_reflow (ctx : CalendarCtx)
    (wcIndex : List (String × WorkCenter)) (allowEarlierStart : Bool)
    (now procMs : Int) (workOrderId newStartDate : String)
    (allOrders : List WorkOrder) :
    rescheduleOrder ctx wcIndex allowEarlierStart now procMs workOrderId newStartDate allOrders =
      reflow ctx wcIndex allowEarlierStart now procMs
        (updateOrderStartSpec workOrderId newStartDate allOrders) ∧
    ((∀ o ∈ allOrders, o.docId ≠ workOrderId) →
      rescheduleOrder ctx wcIndex allowEarlierStart now procMs workOrderId newStartDate allOrders =
        reflow ctx wcIndex allowEarlierStart now procMs allOrders) := by
  constructor
  · rfl
  · intro h
    unfold rescheduleOrder
    have hmap : (allOrders.map fun order =>
        if order.docId = workOrderId then
          { order with data := { order.data with startDate := newStartDate } }
        else order) = allOrders := by
      induction allOrders with
      | nil => rfl
      | cons o os ih =>
        have ho : o.docId ≠ workOrderId := h o (List.mem_cons_self o os)
        have hos : ∀ x ∈ os, x.docId ≠ workOrderId := fun x hx => h x (List.mem_cons_of_mem o hx)
        simp [ho, ih hos]
    rw [hmap]

/-- C10 witness: on `wOrders` and an id no order carries, `rescheduleOrder`
agrees with both forms of `reflow`. -/
theorem rescheduleOrder_refines_reflow_witness :
    rescheduleOrder openCtx wcIndex1 false 0 0 "nope" "2024-01-16T00:00:00.000Z" wOrders =
      reflow openCtx wcIndex1 false 0 0
        (updateOrderStartSpec "nope" "2024-01-16T00:00:00.000Z" wOrders) ∧
    ((∀ o ∈ wOrders, o.docId ≠ "nope") →
      rescheduleOrder openCtx wcIndex1 false 0 0 "nope" "2024-01-16T00:00:00.000Z" wOrders =
        reflow openCtx wcIndex1 false 0 0 wOrders) :=
  rescheduleOrder_refines_reflow openCtx wcIndex1 false 0 0 "nope"
    "2024-01-16T00:00:00.000Z" wOrders

/-- C5: `scheduleWorkOrder` on a maintenance order appends a result that keeps
the original dates (`newStartDate`/`newEndDate` are the parsed originals),
is fixed and not rescheduled; it raises the work center's availability to the
maximum of its current value and the original end, records the order's end
time as the original end, and emits no warning. -/
theorem scheduleWorkOrder_maintenance_fixed (ctx : CalendarCtx)
    (wcIndex : List (String × WorkCenter)) (allowEarlierStart : Bool)
    (now : Int) (st : SchedState) (order : WorkOrder)
    (h : order.data.isMaintenance = true) :
    (scheduleWorkOrder ctx wcIndex allowEarlierStart now st order).results =
      st.results ++
        [{ workOrderId := order.docId
           workOrderNumber := order.data.workOrderNumber
           originalStartDate := order.data.startDate
           originalEndDate := order.data.endDate
           newStartDate := ctx.fromISO order.data.startDate
           newEndDate := ctx.fromISO order.data.endDate
           wasRescheduled := false
           isFixed := true }] ∧
    mapGet (scheduleWorkOrder ctx wcIndex allowEarlierStart now st order).workCenterAvailability
        order.data.workCenterId =
      some (match mapGet st.workCenterAvailability order.data.workCenterId with
            | none => ctx.fromISO order.data.endDate
            | some current => max current (ctx.fromISO order.data.endDate)) ∧
    mapGet (scheduleWorkOrder ctx wcIndex allowEarlierStart now st order).workOrderEndTimes
        order.docId =
      some (ctx.fromISO order.data.endDate) ∧
    (scheduleWorkOrder ctx wcIndex allowEarlierStart now st order).warnings = st.warnings := by
  refine ⟨?_, ?_, ?_, ?_⟩
  · unfold scheduleWorkOrder
    rw [h]
    rfl
  · unfold scheduleWorkOrder
    rw [h]
    rw [if_pos (rfl : true = true)]
    cases hm : mapGet st.workCenterAvailability order.data.workCenterId with
    | none => simp only [hm, mapGet_mapSet_self]
    | some current =>
      simp only [hm]
      by_cases hlt : current < ctx.fromISO order.data.endDate
      · rw [if_pos hlt, mapGet_mapSet_self, max_eq_right (le_of_lt hlt)]
      · rw [if_neg hlt, max_eq_left (not_lt.mp hlt), hm]
  · unfold scheduleWorkOrder
    rw [h]
    rw [if_pos (rfl : true = true)]
    exact mapGet_mapSet_self _ _ _
  · unfold scheduleWorkOrder
    rw [h]
    rfl

/-- C5 witness: the maintenance order `wMaintOrder` scheduled from the empty
state: fixed result with the original dates, availability raised to its end,
end time recorded, no warnings. -/
theorem scheduleWorkOrder_maintenance_fixed_witness :
    (scheduleWorkOrder openCtx wcIndex1 false 0 emptySchedState wMaintOrder).results =
      emptySchedState.results ++
        [{ workOrderId := wMaintOrder.docId
           workOrderNumber := wMaintOrder.data.workOrderNumber
           originalStartDate := wMaintOrder.data.startDate
           originalEndDate := wMaintOrder.data.endDate
           newStartDate := openCtx.fromISO wMaintOrder.data.startDate
           newEndDate := openCtx.fromISO wMaintOrder.data.endDate
           wasRescheduled := false
           isFixed := true }] ∧
    mapGet (scheduleWorkOrder openCtx wcIndex1 false 0 emptySchedState wMaintOrder).workCenterAvailability
        wMaintOrder.data.workCenterId =
      some (match mapGet emptySchedState.workCenterAvailability wMaintOrder.data.workCenterId with
            | none => openCtx.fromISO wMaintOrder.data.endDate
            | some current => max current (openCtx.fromISO wMaintOrder.data.endDate)) ∧
    mapGet (scheduleWorkOrder openCtx wcIndex1 false 0 emptySchedState wMaintOrder).workOrderEndTimes
        wMaintOrder.docId =
      some (openCtx.fromISO wMaintOrder.data.endDate) ∧
    (scheduleWorkOrder openCtx wcIndex1 false 0 emptySchedState wMaintOrder).warnings =
      emptySchedState.warnings :=
  scheduleWorkOrder_maintenance_fixed openCtx wcIndex1 false 0 emptySchedState
    wMaintOrder (by decide)

/-- `validateWorkCenters` passes exactly when every order's work center
resolves. -/
theorem validateWorkCenters_eq_none_iff (wcIndex : List (String × WorkCenter))
    (workOrders : List WorkOrder) :
    validateWorkCenters wcIndex workOrders = none ↔
      ∀ o ∈ workOrders, (mapGet wcIndex o.data.workCenterId).isSome := by
  induction workOrders with
  | nil => simp [validateWorkCenters]
  | cons o os ih =>
    cases hx : mapGet wcIndex o.data.workCenterId with
    | none => simp [validateWorkCenters, hx]
    | some w => simp [validateWorkCenters, hx, ih]

/-- When `validateWorkCenters` reports a pair, it is a real offending order. -/
theorem validateWorkCenters_eq_some (wcIndex : List (String × WorkCenter))
    (workOrders : List WorkOrder) (a b : String)
    (hh : validateWorkCenters wcIndex workOrders = some (a, b)) :
    ∃ o ∈ workOrders, o.docId = a ∧ o.data.workCenterId = b ∧ mapGet wcIndex b = none := by
  induction workOrders with
  | nil => simp [validateWorkCenters] at hh
  | cons o os ih =>
    cases hx : mapGet wcIndex o.data.workCenterId with
    | none =>
      simp only [validateWorkCenters, hx, Option.isNone_none, if_pos] at hh
      obtain ⟨h1, h2⟩ := Prod.mk.injEq .. ▸ Option.some.injEq .. ▸ hh
      refine ⟨o, List.mem_cons_self o os, h1, h2, ?_⟩
      rw [← h2]
      exact hx
    | some w =>
      simp only [validateWorkCenters, hx, Option.isNone_some, Bool.false_eq_true,
        if_false] at hh
      obtain ⟨o', ho', h'⟩ := ih hh
      exact ⟨o', List.mem_cons_of_mem o ho', h'⟩

/-- `addEdgeStep` preserves the error shape: only missing-dependency errors. -/
theorem addEdgeStep_shape (id depId : String)
    (acc : Except SchedulerError (List (String × GraphNode)))
    (hacc : (∃ m, acc = Except.ok m) ∨
      ∃ a b, acc = Except.error (.missingDependency a b)) :
    (∃ m, addEdgeStep id acc depId = Except.ok m) ∨
      ∃ a b, addEdgeStep id acc depId = Except.error (.missingDependency a b) := by
  rcases hacc with ⟨m, rfl⟩ | ⟨a, b, rfl⟩
  · unfold addEdgeStep
    cases hx : mapGet m depId with
    | none =>
      right
      exact ⟨id, depId, by simp [Except.bind, hx]⟩
    | some dn =>
      left
      exact ⟨mapSet m depId { dn with dependents := addUnique dn.dependents id },
        by simp [Except.bind, hx]⟩
  · right
    exact ⟨a, b, rfl⟩

/-- The dependency fold of the second pass only produces missing-dependency
errors. -/
theorem foldl_addEdgeStep_shape (id : String) (deps : List String)
    (acc : Except SchedulerError (List (String × GraphNode)))
    (hacc : (∃ m, acc = Except.ok m) ∨
      ∃ a b, acc = Except.error (.missingDependency a b)) :
    (∃ m, deps.foldl (addEdgeStep id) acc = Except.ok m) ∨
      ∃ a b, deps.foldl (addEdgeStep id) acc = Except.error (.missingDependency a b) := by
  induction deps generalizing acc with
  | nil => exact hacc
  | cons d ds ih => exact ih _ (addEdgeStep_shape id d acc hacc)

/-- `addReverseEdges` only produces missing-dependency errors. -/
theorem addReverseEdges_shape (entries m : List (String × GraphNode)) :
    (∃ g, addReverseEdges entries m = Except.ok g) ∨
      ∃ a b, addReverseEdges entries m = Except.error (.missingDependency a b) := by
  induction entries generalizing m with
  | nil => exact Or.inl ⟨m, rfl⟩
  | cons p rest ih =>
    obtain ⟨id, node⟩ := p
    rcases foldl_addEdgeStep_shape id node.dependencies (Except.ok m)
        (Or.inl ⟨m, rfl⟩) with ⟨m2, h2⟩ | ⟨a, b, h2⟩
    · rcases ih m2 with ⟨g, hg⟩ | ⟨a, b, he⟩
      · exact Or.inl ⟨g, by simp [addReverseEdges, h2, Except.bind, hg]⟩
      · exact Or.inr ⟨a, b, by simp [addReverseEdges, h2, Except.bind, he]⟩
    · exact Or.inr ⟨a, b, by simp [addReverseEdges, h2, Except.bind]⟩

/-- `buildDependencyGraph` fails only with `MissingDependencyError`. -/
theorem buildDependencyGraph_error_shape (workOrders : List WorkOrder)
    (e : SchedulerError) (hh : buildDependencyGraph workOrders = Except.error e) :
    ∃ a b, e = SchedulerError.missingDependency a b := by
  simp only [buildDependencyGraph] at hh
  rcases addReverseEdges_shape (buildNodes workOrders) (buildNodes workOrders) with
    ⟨g, hg⟩ | ⟨a, b, hab⟩
  · rw [hg] at hh
    simp only [Except.map] at hh
    exact Except.noConfusion hh
  · rw [hab] at hh
    simp only [Except.map] at hh
    injection hh with h2
    exact ⟨a, b, h2.symm⟩

/-- `topologicalSort` fails only with `CircularDependencyError`. -/
theorem topologicalSort_error_shape (g : DependencyGraph) (e : SchedulerError)
    (hh : topologicalSort g = Except.error e) :
    ∃ c, e = SchedulerError.circularDependency c := by
  simp only [topologicalSort] at hh
  split at hh
  · exact Except.noConfusion hh
  · injection hh with h2
    exact ⟨_, h2.symm⟩

/-- C7: `reflow` fails with `MissingWorkCenterError` exactly when some order
references an unknown work center — the validation runs before graph building
and scheduling, so no other error can pre-empt it and no results, warnings or
trackers are produced — and the error carries a real offending order's id and
work-center id. -/
theorem reflow_missing_work_center_iff (ctx : CalendarCtx)
    (wcIndex : List (String × WorkCenter)) (allowEarlierStart : Bool)
    (now procMs : Int) (workOrders : List WorkOrder) :
    ((∃ o ∈ workOrders, mapGet wcIndex o.data.workCenterId = none) ↔
      ∃ a b, reflow ctx wcIndex allowEarlierStart now procMs workOrders =
        Except.error (SchedulerError.missingWorkCenter a b)) ∧
    (∀ a b, reflow ctx wcIndex allowEarlierStart now procMs workOrders =
        Except.error (SchedulerError.missingWorkCenter a b) →
      ∃ o ∈ workOrders, o.docId = a ∧ o.data.workCenterId = b ∧ mapGet wcIndex b = none) := by
  have key : ∀ a b, reflow ctx wcIndex allowEarlierStart now procMs workOrders =
      Except.error (SchedulerError.missingWorkCenter a b) →
      validateWorkCenters wcIndex workOrders = some (a, b) := by
    intro a b hh
    unfold reflow at hh
    cases hv : validateWorkCenters wcIndex workOrders with
    | some p =>
      obtain ⟨x, y⟩ := p
      rw [hv] at hh
      injection hh with h2
      injection h2 with h3 h4
      rw [h3, h4]
    | none =>
      rw [hv] at hh
      exfalso
      cases hb : buildDependencyGraph workOrders with
      | error e =>
        rw [hb] at hh
        simp only [Except.bind] at hh
        obtain ⟨a', b', he⟩ := buildDependencyGraph_error_shape _ _ hb
        rw [he] at hh
        injection hh with h2
        exact SchedulerError.noConfusion h2
      | ok g =>
        rw [hb] at hh
        simp only [Except.bind] at hh
        cases ht : topologicalSort g with
        | error e2 =>
          rw [ht] at hh
          obtain ⟨c, hc⟩ := topologicalSort_error_shape _ _ ht
          rw [hc] at hh
          injection hh with h2
          exact SchedulerError.noConfusion h2
        | ok sorted =>
          rw [ht] at hh
          exact Except.noConfusion hh
  refine ⟨⟨?_, ?_⟩, ?_⟩
  · rintro ⟨o, ho, hnone⟩
    cases hv : validateWorkCenters wcIndex workOrders with
    | none =>
      exfalso
      have := (validateWorkCenters_eq_none_iff wcIndex workOrders).mp hv o ho
      rw [hnone] at this
      exact Bool.noConfusion this
    | some p =>
      obtain ⟨x, y⟩ := p
      refine ⟨x, y, ?_⟩
      unfold reflow
      rw [hv]
  · rintro ⟨a, b, hh⟩
    obtain ⟨o, ho, h1, h2, h3⟩ := validateWorkCenters_eq_some _ _ _ _ (key a b hh)
    refine ⟨o, ho, ?_⟩
    rw [h2]
    exact h3
  · intro a b hh
    exact validateWorkCenters_eq_some _ _ _ _ (key a b hh)

/-- With `allowEarlierStart = false` the original start is always among the
constraints, so `calculateEarliestStart` never reaches the `DateTime.now()`
fallback and `scheduleWorkOrder` is independent of the clock. -/
theorem scheduleWorkOrder_now_independent (ctx : CalendarCtx)
    (wcIndex : List (String × WorkCenter)) (now1 now2 : Int) :
    scheduleWorkOrder ctx wcIndex false now1 = scheduleWorkOrder ctx wcIndex false now2 := by
  funext st order
  rfl

/-- C4 (amended): with `allowEarlierStart = false`, two reflow runs differing
only in the clock readings (`DateTime.now()` and the wall-clock
`processingTimeMs`) return identical outputs once `processingTimeMs` is
disregarded — identical results, warnings and remaining metadata. -/
theorem reflow_deterministic_without_earlier_start (ctx : CalendarCtx)
    (wcIndex : List (String × WorkCenter)) (now1 proc1 now2 proc2 : Int)
    (workOrders : List WorkOrder) :
    Except.map eraseProcessingTime (reflow ctx wcIndex false now1 proc1 workOrders) =
      Except.map eraseProcessingTime (reflow ctx wcIndex false now2 proc2 workOrders) := by
  unfold reflow
  cases hv : validateWorkCenters wcIndex workOrders with
  | some p => rfl
  | none =>
    cases hb : buildDependencyGraph workOrders with
    | error e => rfl
    | ok g =>
      simp only [Except.bind]
      cases ht : topologicalSort g with
      | error e2 => rfl
      | ok sorted =>
        simp only [Except.bind]
        rw [scheduleWorkOrder_now_independent ctx wcIndex now1 now2]
        simp [Except.map, eraseProcessingTime]

/-- `charListLt` is irreflexive. -/
theorem charListLt_irrefl (l : List Char) : charListLt l l = false := by
  induction l with
  | nil => rfl
  | cons a as ih => simp [charListLt, ih]

/-- `charListLt` is asymmetric. -/
theorem charListLt_asymm (a b : List Char) (h : charListLt a b = true) :
    charListLt b a = false := by
  induction a generalizing b with
  | nil =>
    cases b with
    | nil => simp [charListLt] at h
    | cons bh bt => simp [charListLt]
  | cons ah as ih =>
    cases b with
    | nil => simp [charListLt] at h
    | cons bh bt =>
      simp only [charListLt] at h ⊢
      split_ifs at h ⊢
      all_goals first
        | rfl
        | omega
        | (exact ih bt h)
        | (exact absurd h (by simp))

/-- `charListLt` is transitive. -/
theorem charListLt_trans (a b c : List Char) (h1 : charListLt a b = true)
    (h2 : charListLt b c = true) : charListLt a c = true := by
  induction a generalizing b c with
  | nil =>
    cases b with
    | nil => simp [charListLt] at h1
    | cons bh bt =>
      cases c with
      | nil => simp [charListLt] at h2
      | cons ch ct => simp [charListLt]
  | cons ah as ih =>
    cases b with
    | nil => simp [charListLt] at h1
    | cons bh bt =>
      cases c with
      | nil => simp [charListLt] at h2
      | cons ch ct =>
        simp only [charListLt] at h1 h2 ⊢
        split_ifs at h1 h2 ⊢ with h3 h4 h5 h6 h7 h8 h9
        all_goals first
          | rfl
          | omega
          | (exact ih bt ct h1 h2)

/-- Two lists neither of which is below the other are equal. -/
theorem charListLt_conn (a b : List Char) (h1 : charListLt a b = false)
    (h2 : charListLt b a = false) : a = b := by
  induction a generalizing b with
  | nil =>
    cases b with
    | nil => rfl
    | cons bh bt => simp [charListLt] at h1
  | cons ah as ih =>
    cases b with
    | nil => simp [charListLt] at h2
    | cons bh bt =>
      simp only [charListLt] at h1 h2
      split_ifs at h1 h2
      all_goals first
        | (simp at h1)
        | (simp at h2)
        | (have hn : ah.toNat = bh.toNat := by omega
           have hh : ah = bh := by
             apply Char.eq_of_val_eq
             apply UInt32.eq_of_val_eq
             exact Fin.ext hn
           rw [hh, ih bt h1 h2])

/-- `strOrd` returns `.eq` exactly on equal strings. -/
theorem strOrd_eq_iff (s t : String) : strOrd s t = Ordering.eq ↔ s = t := by
  constructor
  · intro h
    unfold strOrd at h
    split_ifs at h with h1 h2
    have hd := charListLt_conn s.data t.data (by simpa using h1) (by simpa using h2)
    cases s
    cases t
    exact congrArg String.mk hd
  · rintro rfl
    unfold strOrd
    simp [charListLt_irrefl]

/-- `.gt` and `.lt` swap under argument exchange. -/
theorem strOrd_gt_iff (s t : String) : strOrd s t = Ordering.gt ↔ strOrd t s = Ordering.lt := by
  unfold strOrd
  by_cases h1 : charListLt s.data t.data
  · simp [h1, charListLt_asymm _ _ h1]
  · by_cases h2 : charListLt t.data s.data
    · simp [h1, h2]
    · simp [h1, h2]

/-- `strOrd`-`.lt` is transitive. -/
theorem strOrd_lt_trans (a b c : String) (h1 : strOrd a b = Ordering.lt)
    (h2 : strOrd b c = Ordering.lt) : strOrd a c = Ordering.lt := by
  have l1 : charListLt a.data b.data = true := by
    by_cases g1 : charListLt a.data b.data = true
    · exact g1
    · exfalso
      unfold strOrd at h1
      rw [if_neg g1] at h1
      split_ifs at h1 <;> simp_all
  have l2 : charListLt b.data c.data = true := by
    by_cases g1 : charListLt b.data c.data = true
    · exact g1
    · exfalso
      unfold strOrd at h2
      rw [if_neg g1] at h2
      split_ifs at h2 <;> simp_all
  unfold strOrd
  rw [if_pos (charListLt_trans _ _ _ l1 l2)]

/-- `cmpReady` answers `.eq` only on the same id. -/
theorem cmpReady_eq_imp (nodes : List (String × GraphNode)) (a b : String)
    (h : cmpReady nodes a b = Ordering.eq) : a = b := by
  simp only [cmpReady] at h
  cases hh : strOrd (((mapGet nodes a).map (·.workOrder.data.startDate)).getD "")
      (((mapGet nodes b).map (·.workOrder.data.startDate)).getD "") with
  | lt => rw [hh] at h; exact absurd h (by simp)
  | gt => rw [hh] at h; exact absurd h (by simp)
  | eq =>
    rw [hh] at h
    exact (strOrd_eq_iff a b).mp h

/-- `cmpReady` is reflexive (`.eq` on the diagonal). -/
theorem cmpReady_refl (nodes : List (String × GraphNode)) (a : String) :
    cmpReady nodes a a = Ordering.eq := by
  simp only [cmpReady]
  rw [(strOrd_eq_iff _ _).mpr rfl]
  exact (strOrd_eq_iff a a).mpr rfl

/-- `.gt` and `.lt` swap under argument exchange for `cmpReady`. -/
theorem cmpReady_gt_iff (nodes : List (String × GraphNode)) (a b : String) :
    cmpReady nodes a b = Ordering.gt ↔ cmpReady nodes b a = Ordering.lt := by
  simp only [cmpReady]
  cases hh : strOrd (((mapGet nodes a).map (·.workOrder.data.startDate)).getD "")
      (((mapGet nodes b).map (·.workOrder.data.startDate)).getD "") with
  | lt =>
    rw [(strOrd_gt_iff _ _).mpr hh]
    simp
  | eq =>
    rw [(strOrd_eq_iff _ _).mpr ((strOrd_eq_iff _ _).mp hh).symm]
    exact strOrd_gt_iff a b
  | gt =>
    rw [(strOrd_gt_iff _ _).mp hh]
    simp

/-- `cmpReady`-`.lt` is transitive. -/
theorem cmpReady_lt_trans (nodes : List (String × GraphNode)) (a b c : String)
    (h1 : cmpReady nodes a b = Ordering.lt) (h2 : cmpReady nodes b c = Ordering.lt) :
    cmpReady nodes a c = Ordering.lt := by
  simp only [cmpReady] at h1 h2 ⊢
  cases hab : strOrd (((mapGet nodes a).map (·.workOrder.data.startDate)).getD "")
      (((mapGet nodes b).map (·.workOrder.data.startDate)).getD "") with
  | gt => rw [hab] at h1; exact absurd h1 (by simp)
  | lt =>
    rw [hab] at h1
    cases hbc : strOrd (((mapGet nodes b).map (·.workOrder.data.startDate)).getD "")
        (((mapGet nodes c).map (·.workOrder.data.startDate)).getD "") with
    | gt => rw [hbc] at h2; exact absurd h2 (by simp)
    | lt =>
      rw [strOrd_lt_trans _ _ _ hab hbc]
    | eq =>
      rw [← (strOrd_eq_iff _ _).mp hbc, hab]
  | eq =>
    rw [hab] at h1
    rw [(strOrd_eq_iff _ _).mp hab]
    cases hbc : strOrd (((mapGet nodes b).map (·.workOrder.data.startDate)).getD "")
        (((mapGet nodes c).map (·.workOrder.data.startDate)).getD "") with
    | gt => rw [hbc] at h2; exact absurd h2 (by simp)
    | lt => rfl
    | eq =>
      simp only [] at h1 h2 ⊢
      rw [hbc] at h2
      simp only [] at h2
      exact strOrd_lt_trans _ _ _ h1 h2

/-- Transitivity of the non-strict ready-pool comparison. -/
theorem cmpReady_le_trans (nodes : List (String × GraphNode)) (a b c : String)
    (h1 : cmpReady nodes a b ≠ Ordering.gt) (h2 : cmpReady nodes b c ≠ Ordering.gt) :
    cmpReady nodes a c ≠ Ordering.gt := by
  intro hg
  have hca : cmpReady nodes c a = Ordering.lt := (cmpReady_gt_iff nodes a c).mp hg
  cases hab : cmpReady nodes a b with
  | gt => exact h1 hab
  | eq =>
    rw [cmpReady_eq_imp nodes a b hab] at hca
    exact h2 ((cmpReady_gt_iff nodes b c).mpr hca)
  | lt => exact h2 ((cmpReady_gt_iff nodes b c).mpr (cmpReady_lt_trans nodes c a b hca hab))

/-- `insertReady` is a permutation of consing. -/
theorem insertReady_perm (nodes : List (String × GraphNode)) (x : String)
    (l : List String) : (insertReady nodes x l).Perm (x :: l) := by
  induction l with
  | nil => exact List.Perm.refl _
  | cons y ys ih =>
    unfold insertReady
    by_cases h : cmpReady nodes x y = Ordering.lt
    · rw [if_pos h]
    · rw [if_neg h]
      exact (ih.cons y).trans (List.Perm.swap x y ys)

/-- Inserting keeps the ready list sorted (pairwise non-`.gt`). -/
theorem insertReady_pairwise (nodes : List (String × GraphNode)) (x : String)
    (l : List String)
    (h : l.Pairwise (fun a b => cmpReady nodes a b ≠ Ordering.gt)) :
    (insertReady nodes x l).Pairwise (fun a b => cmpReady nodes a b ≠ Ordering.gt) := by
  induction l with
  | nil => simp [insertReady]
  | cons y ys ih =>
    rcases List.pairwise_cons.mp h with ⟨hy, hys⟩
    unfold insertReady
    by_cases hcmp : cmpReady nodes x y = Ordering.lt
    · rw [if_pos hcmp]
      refine List.pairwise_cons.mpr ⟨?_, h⟩
      intro z hz
      rcases List.mem_cons.mp hz with rfl | hz2
      · simp [hcmp]
      · exact cmpReady_le_trans nodes x y z (by simp [hcmp]) (hy z hz2)
    · rw [if_neg hcmp]
      refine List.pairwise_cons.mpr ⟨?_, ih hys⟩
      intro z hz
      rcases List.mem_cons.mp ((insertReady_perm nodes x ys).mem_iff.mp hz) with rfl | hz3
      · intro hg
        exact hcmp ((cmpReady_gt_iff nodes y z).mp hg)
      · exact hy z hz3

/-- The insertion-sort fold is a permutation of `acc ++ q`. -/
theorem sortReady_foldl_perm (nodes : List (String × GraphNode))
    (q : List String) : ∀ acc : List String,
    (q.foldl (fun acc x => insertReady nodes x acc) acc).Perm (acc ++ q) := by
  induction q with
  | nil => intro acc; simp
  | cons x xs ih =>
    intro acc
    refine (ih (insertReady nodes x acc)).trans ?_
    refine (((insertReady_perm nodes x acc).append_right xs).trans ?_)
    exact List.perm_middle.symm

/-- `sortReady` permutes the ready queue. -/
theorem sortReady_perm (nodes : List (String × GraphNode)) (q : List String) :
    (sortReady nodes q).Perm q := by
  simpa using sortReady_foldl_perm nodes q []

/-- The insertion-sort fold keeps the accumulator sorted. -/
theorem sortReady_foldl_pairwise (nodes : List (String × GraphNode))
    (q : List String) : ∀ acc : List String,
    acc.Pairwise (fun a b => cmpReady nodes a b ≠ Ordering.gt) →
    (q.foldl (fun acc x => insertReady nodes x acc) acc).Pairwise
      (fun a b => cmpReady nodes a b ≠ Ordering.gt) := by
  induction q with
  | nil => intro acc hacc; simpa using hacc
  | cons x xs ih =>
    intro acc hacc
    exact ih (insertReady nodes x acc) (insertReady_pairwise nodes x acc hacc)

/-- `sortReady` output is sorted by the comparator. -/
theorem sortReady_pairwise (nodes : List (String × GraphNode)) (q : List String) :
    (sortReady nodes q).Pairwise (fun a b => cmpReady nodes a b ≠ Ordering.gt) := by
  exact sortReady_foldl_pairwise nodes q [] (by simp)

/-- C6 (amended): whenever the ready pool is non-empty, the next node the
Kahn loop appends is the pool entry with the minimal
`(startDate-string, id)` key under the source's comparator — the raw ISO
strings compared as by `localeCompare`, ties broken by id — not the minimal
start instant. -/
theorem kahnLoop_appends_minimal_string_key (nodes : List (String × GraphNode))
    (fuel : Nat) (inDegrees : List (String × Int)) (queue : List String)
    (result : List WorkOrder) (hq : queue ≠ [])
    (hnode : ∀ q ∈ queue, (mapGet nodes q).isSome) :
    ∃ h rest node,
      sortReady nodes queue = h :: rest ∧ h ∈ queue ∧
      (∀ q ∈ queue, cmpReady nodes h q ≠ Ordering.gt) ∧
      mapGet nodes h = some node ∧
      kahnLoop nodes (fuel + 1) inDegrees queue result =
        kahnLoop nodes fuel
          (processDependents node.dependents inDegrees rest).1
          (processDependents node.dependents inDegrees rest).2
          (result ++ [node.workOrder]) := by
  have hperm := sortReady_perm nodes queue
  cases hs : sortReady nodes queue with
  | nil =>
    exfalso
    rw [hs] at hperm
    exact hq hperm.symm.eq_nil
  | cons h rest =>
    have hmem : h ∈ queue := by
      rw [hs] at hperm
      exact hperm.mem_iff.mp (List.mem_cons_self h rest)
    cases hn : mapGet nodes h with
    | none =>
      exfalso
      have := hnode h hmem
      rw [hn] at this
      exact Bool.noConfusion this
    | some node =>
      refine ⟨h, rest, node, rfl, hmem, ?_, hn, ?_⟩
      · intro q hqmem
        have hpw := sortReady_pairwise nodes queue
        rw [hs] at hpw hperm
        rcases List.mem_cons.mp (hperm.mem_iff.mpr hqmem) with rfl | hq2
        · rw [cmpReady_refl]
          simp
        · exact (List.pairwise_cons.mp hpw).1 q hq2
      · show kahnLoop nodes (fuel + 1) inDegrees queue result = _
        conv_lhs => unfold kahnLoop
        rw [hs]
        simp only [hn]

/-- C6 amended witness: on the ready pool `["b", "a"]` over `wGraph`, the
loop appends the minimal `(startDate-string, id)` entry. -/
theorem kahnLoop_appends_minimal_string_key_witness :
    ∃ h rest node,
      sortReady wGraph.nodes ["b", "a"] = h :: rest ∧ h ∈ ["b", "a"] ∧
      (∀ q ∈ ["b", "a"], cmpReady wGraph.nodes h q ≠ Ordering.gt) ∧
      mapGet wGraph.nodes h = some node ∧
      kahnLoop wGraph.nodes (0 + 1) [] ["b", "a"] [] =
        kahnLoop wGraph.nodes 0
          (processDependents node.dependents [] rest).1
          (processDependents node.dependents [] rest).2
          ([] ++ [node.workOrder]) :=
  kahnLoop_appends_minimal_string_key wGraph.nodes 0 [] ["b", "a"] []
    (by decide) (by decide)

/-- `basicErrStep` only appends. -/
theorem basicErrStep_append (ids : List String) (o : WorkOrder)
    (errs : List String) (d : String) :
    basicErrStep ids o errs d = errs ++ basicErrStep ids o [] d := by
  unfold basicErrStep
  split_ifs <;> simp

/-- The per-order fold of the first pass factors through its accumulator. -/
theorem foldl_basicErrStep_append (ids : List String) (o : WorkOrder)
    (deps : List String) : ∀ errs : List String,
    deps.foldl (basicErrStep ids o) errs = errs ++ deps.foldl (basicErrStep ids o) [] := by
  induction deps with
  | nil => intro errs; simp
  | cons d ds ih =>
    intro errs
    rw [List.foldl_cons, List.foldl_cons, ih (basicErrStep ids o errs d),
      ih (basicErrStep ids o [] d), basicErrStep_append]
    simp

/-- The per-order fold is silent exactly when every dependency passes both
checks. -/
theorem foldl_basicErrStep_nil_iff (ids : List String) (o : WorkOrder)
    (deps : List String) :
    deps.foldl (basicErrStep ids o) [] = [] ↔
      ∀ d ∈ deps, d ≠ o.docId ∧ d ∈ ids := by
  induction deps with
  | nil => simp
  | cons d ds ih =>
    rw [List.foldl_cons, foldl_basicErrStep_append, List.append_eq_nil]
    constructor
    · rintro ⟨h1, h2⟩
      have hd : d ≠ o.docId ∧ d ∈ ids := by
        unfold basicErrStep at h1
        split_ifs at h1 with g1 g2
        · simp at h1
        · exact ⟨g1, g2⟩
        · simp at h1
      intro x hx
      rcases List.mem_cons.mp hx with rfl | hx2
      · exact hd
      · exact ih.mp h2 x hx2
    · intro hall
      obtain ⟨hne, hmem⟩ := hall d (List.mem_cons_self d ds)
      refine ⟨?_, ih.mpr (fun x hx => hall x (List.mem_cons_of_mem d hx))⟩
      unfold basicErrStep
      rw [if_neg hne, if_pos hmem]

/-- The outer fold of the first pass factors through its accumulator. -/
theorem foldl_basicOrders_append (ids : List String) (os : List WorkOrder) :
    ∀ errs : List String,
    os.foldl (fun errs o => o.data.dependsOnWorkOrderIds.foldl (basicErrStep ids o) errs) errs =
      errs ++ os.foldl
        (fun errs o => o.data.dependsOnWorkOrderIds.foldl (basicErrStep ids o) errs) [] := by
  induction os with
  | nil => intro errs; simp
  | cons o os2 ih =>
    intro errs
    rw [List.foldl_cons, List.foldl_cons, ih, foldl_basicErrStep_append,
      ih (List.foldl (basicErrStep ids o) [] o.data.dependsOnWorkOrderIds)]
    simp

/-- The first pass is silent exactly when no order has a self-dependency or a
dangling reference. -/
theorem basicDependencyErrors_nil_iff (workOrders : List WorkOrder) :
    basicDependencyErrors workOrders = [] ↔
      ∀ o ∈ workOrders, ∀ d ∈ o.data.dependsOnWorkOrderIds,
        d ≠ o.docId ∧ d ∈ workOrders.map (·.docId) := by
  simp only [basicDependencyErrors]
  generalize workOrders.map (·.docId) = ids
  induction workOrders with
  | nil => simp
  | cons o os ih =>
    rw [List.foldl_cons, foldl_basicOrders_append, foldl_basicErrStep_append,
      List.append_eq_nil, List.append_eq_nil]
    constructor
    · rintro ⟨⟨h0, h1⟩, h2⟩
      intro x hx
      rcases List.mem_cons.mp hx with rfl | hx2
      · exact (foldl_basicErrStep_nil_iff ids x x.data.dependsOnWorkOrderIds).mp h1
      · exact ih.mp h2 x hx2
    · intro hall
      refine ⟨⟨rfl, ?_⟩, ih.mpr (fun x hx => hall x (List.mem_cons_of_mem o hx))⟩
      exact (foldl_basicErrStep_nil_iff ids o o.data.dependsOnWorkOrderIds).mpr
        (hall o (List.mem_cons_self o os))

/-- The build + sort pipeline fails only with missing-dependency or
circular-dependency errors. -/
theorem buildSort_error_shape (workOrders : List WorkOrder) (e : SchedulerError)
    (hh : (buildDependencyGraph workOrders).bind topologicalSort = Except.error e) :
    (∃ a b, e = SchedulerError.missingDependency a b) ∨
      ∃ c, e = SchedulerError.circularDependency c := by
  cases hb : buildDependencyGraph workOrders with
  | error e2 =>
    rw [hb] at hh
    simp only [Except.bind] at hh
    injection hh with h2
    exact Or.inl (h2 ▸ buildDependencyGraph_error_shape workOrders e2 hb)
  | ok g =>
    rw [hb] at hh
    simp only [Except.bind] at hh
    exact Or.inr (topologicalSort_error_shape g e hh)

/-- C9 (amended): `validateDependencies` is total, and returns
`isValid = true` exactly when the first pass finds no self-dependency or
dangling reference and the graph build plus topological sort succeed; when
the first pass does report errors, the cycle check is skipped and exactly the
first-pass errors are returned. -/
theorem validateDependencies_isValid_iff (workOrders : List WorkOrder) :
    ((validateDependencies workOrders).1 = true ↔
      ((∀ o ∈ workOrders, ∀ d ∈ o.data.dependsOnWorkOrderIds,
          d ≠ o.docId ∧ d ∈ workOrders.map (·.docId)) ∧
        ∃ r, (buildDependencyGraph workOrders).bind topologicalSort = Except.ok r)) ∧
    (basicDependencyErrors workOrders ≠ [] →
      (validateDependencies workOrders).2 = basicDependencyErrors workOrders) := by
  by_cases hbe : basicDependencyErrors workOrders = []
  · constructor
    · simp only [validateDependencies, hbe, List.isEmpty_nil, if_true]
      cases hp : (buildDependencyGraph workOrders).bind topologicalSort with
      | ok r =>
        simp only []
        constructor
        · intro _
          exact ⟨(basicDependencyErrors_nil_iff workOrders).mp hbe, r, rfl⟩
        · intro _
          rfl
      | error e =>
        rcases buildSort_error_shape workOrders e hp with ⟨a, b, rfl⟩ | ⟨c, rfl⟩
        · simp only []
          constructor
          · intro hfalse
            exact absurd hfalse (by simp)
          · rintro ⟨_, r, hr⟩
            exact Except.noConfusion hr
        · simp only []
          constructor
          · intro hfalse
            exact absurd hfalse (by simp)
          · rintro ⟨_, r, hr⟩
            exact Except.noConfusion hr
    · intro hne
      exact absurd hbe hne
  · have hemp : (basicDependencyErrors workOrders).isEmpty = false := by
      cases hc : basicDependencyErrors workOrders with
      | nil => exact absurd hc hbe
      | cons x xs => rfl
    constructor
    · simp only [validateDependencies, hemp, Bool.false_eq_true, if_false]
      constructor
      · intro hfalse
        exact hfalse.elim
      · rintro ⟨hclean, _⟩
        exact absurd ((basicDependencyErrors_nil_iff workOrders).mpr hclean) hbe
    · intro _
      simp only [validateDependencies, hemp, Bool.false_eq_true, if_false]

/-- Keys after `mapSet`: unchanged when present, appended when new. -/
theorem mapKeys_mapSet (m : List (String × α)) (k : String) (v : α) :
    mapKeys (mapSet m k v) =
      if k ∈ mapKeys m then mapKeys m else mapKeys m ++ [k] := by
  induction m with
  | nil => simp [mapSet, mapKeys]
  | cons p rest ih =>
    obtain ⟨k', v'⟩ := p
    by_cases h : k' = k
    · subst h
      simp [mapSet, mapKeys]
    · simp only [mapSet, if_neg h, mapKeys, List.map_cons, List.mem_cons]
      simp only [mapKeys] at ih
      by_cases hm : k ∈ List.map (fun x => x.1) rest
      · rw [if_pos (Or.inr hm), ih, if_pos hm]
      · rw [if_neg ?hneg, ih, if_neg hm]
        case hneg =>
          rintro (hh | hh)
          · exact h hh.symm
          · exact hm hh
        simp

/-- `mapGet` succeeds exactly on present keys. -/
theorem mapGet_isSome_iff (m : List (String × α)) (k : String) :
    (mapGet m k).isSome ↔ k ∈ mapKeys m := by
  induction m with
  | nil => simp [mapGet, mapKeys]
  | cons p rest ih =>
    obtain ⟨k', v'⟩ := p
    simp only [mapGet, mapKeys, List.map_cons, List.mem_cons]
    by_cases h : k' = k
    · subst h
      simp
    · rw [if_neg h]
      simp only [mapKeys] at ih
      rw [ih]
      constructor
      · exact fun hm => Or.inr hm
      · rintro (rfl | hm)
        · exact absurd rfl h
        · exact hm

/-- A successful `mapGet` witnesses key membership. -/
theorem mapGet_some_mem_keys (m : List (String × α)) (k : String) (v : α)
    (h : mapGet m k = some v) : k ∈ mapKeys m := by
  rw [← mapGet_isSome_iff, h]
  rfl

/-- With `Nodup` keys, every binding is returned by `mapGet`. -/
theorem mapGet_of_mem_nodup (m : List (String × α)) (k : String) (v : α)
    (hnd : (mapKeys m).Nodup) (hmem : (k, v) ∈ m) : mapGet m k = some v := by
  induction m with
  | nil => simp at hmem
  | cons p rest ih =>
    obtain ⟨k', v'⟩ := p
    rcases List.mem_cons.mp hmem with heq | hmem2
    · rw [Prod.ext_iff] at heq
      obtain ⟨h1, h2⟩ := heq
      subst h1
      subst h2
      simp [mapGet]
    · have hk : k' ≠ k := by
        intro hh
        subst hh
        have : k' ∈ mapKeys rest := by
          simp only [mapKeys]
          exact List.mem_map.mpr ⟨(k', v), hmem2, rfl⟩
        exact (List.nodup_cons.mp (by simpa [mapKeys] using hnd)).1 this
      simp only [mapGet, if_neg hk]
      exact ih (List.nodup_cons.mp (by simpa [mapKeys] using hnd)).2 hmem2

/-- `mapGet` over a value-mapped association list. -/
theorem mapGet_map_values (m : List (String × α)) (f : String × α → β) (k : String) :
    mapGet (m.map (fun p => (p.1, f p))) k = (mapGet m k).map (fun v => f (k, v)) := by
  induction m with
  | nil => simp [mapGet]
  | cons p rest ih =>
    obtain ⟨k', v'⟩ := p
    by_cases h : k' = k
    · subst h
      simp [mapGet]
    · simp [mapGet, h, ih]

/-- Membership in `dedupAux`. -/
theorem dedupAux_mem (l : List String) : ∀ (seen : List String) (a : String),
    a ∈ dedupAux seen l ↔ a ∈ l ∧ a ∉ seen := by
  induction l with
  | nil => intro seen a; simp [dedupAux]
  | cons x xs ih =>
    intro seen a
    by_cases hx : x ∈ seen
    · simp only [dedupAux, if_pos hx, ih]
      constructor
      · rintro ⟨h1, h2⟩
        exact ⟨List.mem_cons_of_mem x h1, h2⟩
      · rintro ⟨h1, h2⟩
        rcases List.mem_cons.mp h1 with rfl | h3
        · exact absurd hx h2
        · exact ⟨h3, h2⟩
    · simp only [dedupAux, if_neg hx, List.mem_cons, ih]
      constructor
      · rintro (rfl | ⟨h1, h2⟩)
        · exact ⟨Or.inl rfl, hx⟩
        · exact ⟨Or.inr h1, fun hh => h2 (List.mem_append_left _ hh)⟩
      · rintro ⟨rfl | h1, h2⟩
        · exact Or.inl rfl
        · by_cases ha : a = x
          · exact Or.inl ha
          · refine Or.inr ⟨h1, ?_⟩
            intro hh
            rcases List.mem_append.mp hh with h3 | h3
            · exact h2 h3
            · exact ha (by simpa using h3)

/-- `dedup` keeps exactly the members. -/
theorem mem_dedup (l : List String) (a : String) : a ∈ dedup l ↔ a ∈ l := by
  unfold dedup
  rw [dedupAux_mem]
  simp

/-- `dedupAux` has no duplicates. -/
theorem dedupAux_nodup (l : List String) : ∀ seen : List String,
    (dedupAux seen l).Nodup := by
  induction l with
  | nil => intro seen; simp [dedupAux]
  | cons x xs ih =>
    intro seen
    by_cases hx : x ∈ seen
    · simp only [dedupAux, if_pos hx]
      exact ih seen
    · simp only [dedupAux, if_neg hx]
      refine List.nodup_cons.mpr ⟨?_, ih (seen ++ [x])⟩
      intro hmem
      exact ((dedupAux_mem xs (seen ++ [x]) x).mp hmem).2 (List.mem_append_right _ (by simp))

/-- `dedup` has no duplicates. -/
theorem dedup_nodup (l : List String) : (dedup l).Nodup :=
  dedupAux_nodup l []

/-- `dedupAux` never grows the list. -/
theorem dedupAux_length_le (l : List String) : ∀ seen : List String,
    (dedupAux seen l).length ≤ l.length := by
  induction l with
  | nil => intro seen; simp [dedupAux]
  | cons x xs ih =>
    intro seen
    by_cases hx : x ∈ seen
    · simp only [dedupAux, if_pos hx]
      exact le_trans (ih seen) (Nat.le_succ _)
    · simp only [dedupAux, if_neg hx, List.length_cons]
      exact Nat.succ_le_succ (ih (seen ++ [x]))

/-- `dedup` never grows the list. -/
theorem dedup_length_le (l : List String) : (dedup l).length ≤ l.length :=
  dedupAux_length_le l []

/-- Filtering with a pointwise-weaker predicate keeps at most as many
elements. -/
theorem length_filter_mono (l : List String) (p q : String → Bool)
    (h : ∀ a ∈ l, p a = true → q a = true) :
    (l.filter p).length ≤ (l.filter q).length := by
  induction l with
  | nil => simp
  | cons x xs ih =>
    have ihx := ih (fun a ha => h a (List.mem_cons_of_mem x ha))
    by_cases hp : p x = true
    · rw [List.filter_cons_of_pos hp, List.filter_cons_of_pos (h x (List.mem_cons_self x xs) hp)]
      simpa using ihx
    · rw [List.filter_cons_of_neg (by simpa using hp)]
      by_cases hq : q x = true
      · rw [List.filter_cons_of_pos hq]
        exact le_trans ihx (Nat.le_succ _)
      · rw [List.filter_cons_of_neg (by simpa using hq)]
        exact ihx

/-- A filter that keeps the whole length keeps every element. -/
theorem filter_length_eq_all (l : List String) (p : String → Bool)
    (h : (l.filter p).length = l.length) : ∀ a ∈ l, p a = true := by
  induction l with
  | nil => simp
  | cons x xs ih =>
    by_cases hp : p x = true
    · rw [List.filter_cons_of_pos hp] at h
      intro a ha
      rcases List.mem_cons.mp ha with rfl | ha2
      · exact hp
      · exact ih (by simpa using h) a ha2
    · rw [List.filter_cons_of_neg (by simpa using hp)] at h
      have := List.length_filter_le p xs
      simp only [List.length_cons] at h
      omega

/-- Splitting a list extended by one element. -/
theorem append_singleton_split (l : List α) (w : α) (pre : List α) (x : α)
    (suf : List α) (h : l ++ [w] = pre ++ x :: suf) :
    (∃ suf2, l = pre ++ x :: suf2 ∧ suf = suf2 ++ [w]) ∨
      (pre = l ∧ x = w ∧ suf = []) := by
  cases hs : suf.reverse with
  | nil =>
    right
    rw [List.reverse_eq_nil_iff] at hs
    subst hs
    have := h
    rw [← List.concat_eq_append, ← List.concat_eq_append] at this
    obtain ⟨h1, h2⟩ := List.concat_inj.mp this
    exact ⟨h1.symm, h2.symm, rfl⟩
  | cons y ys =>
    left
    have hsuf : suf = ys.reverse ++ [y] := by
      rw [← List.reverse_reverse suf, hs]
      simp
    subst hsuf
    have h2 : l ++ [w] = (pre ++ x :: ys.reverse) ++ [y] := by
      rw [h]
      simp
    rw [← List.concat_eq_append, ← List.concat_eq_append] at h2
    obtain ⟨h3, h4⟩ := List.concat_inj.mp h2
    exact ⟨ys.reverse, h3, by rw [h4]⟩

/-- `processDependents` of a duplicate-free dependent set: each listed key is
decremented once, the rest untouched; exactly the keys whose old value was 1
are enqueued, in order, behind the existing queue. -/
theorem processDependents_spec (deps : List String) (hnd : deps.Nodup) :
    ∀ (inDegrees : List (String × Int)) (queue : List String),
    (∀ k, mapGet (processDependents deps inDegrees queue).1 k =
      if k ∈ deps then some ((mapGet inDegrees k).getD 0 - 1) else mapGet inDegrees k) ∧
    (processDependents deps inDegrees queue).2 =
      queue ++ deps.filter (fun t => (mapGet inDegrees t).getD 0 = 1) := by
  induction deps with
  | nil =>
    intro inDegrees queue
    simp [processDependents]
  | cons t ts ih =>
    intro inDegrees queue
    obtain ⟨hnott, hndts⟩ := List.nodup_cons.mp hnd
    obtain ⟨ihget, ihqueue⟩ := ih hndts (mapSet inDegrees t ((mapGet inDegrees t).getD 0 - 1))
      (if (mapGet inDegrees t).getD 0 - 1 = 0 then queue ++ [t] else queue)
    constructor
    · intro k
      rw [show processDependents (t :: ts) inDegrees queue =
          processDependents ts (mapSet inDegrees t ((mapGet inDegrees t).getD 0 - 1))
            (if (mapGet inDegrees t).getD 0 - 1 = 0 then queue ++ [t] else queue) from rfl]
      rw [ihget k]
      by_cases hk : k ∈ ts
      · rw [if_pos hk, if_pos (List.mem_cons_of_mem t hk)]
        have hkt : k ≠ t := fun hh => hnott (hh ▸ hk)
        rw [mapGet_mapSet_ne _ _ _ _ hkt]
      · rw [if_neg hk]
        by_cases hkt : k = t
        · subst hkt
          rw [if_pos (List.mem_cons_self k ts), mapGet_mapSet_self]
        · rw [if_neg (by simp [hkt, hk]), mapGet_mapSet_ne _ _ _ _ hkt]
    · rw [show processDependents (t :: ts) inDegrees queue =
          processDependents ts (mapSet inDegrees t ((mapGet inDegrees t).getD 0 - 1))
            (if (mapGet inDegrees t).getD 0 - 1 = 0 then queue ++ [t] else queue) from rfl]
      rw [ihqueue]
      have hfc : ts.filter
          (fun x => (mapGet (mapSet inDegrees t ((mapGet inDegrees t).getD 0 - 1)) x).getD 0 = 1) =
          ts.filter (fun x => (mapGet inDegrees x).getD 0 = 1) := by
        apply List.filter_congr
        intro x hx
        have hxt : x ≠ t := fun hh => hnott (hh ▸ hx)
        rw [mapGet_mapSet_ne _ _ _ _ hxt]
      rw [hfc]
      by_cases h1 : (mapGet inDegrees t).getD 0 - 1 = 0
      · rw [if_pos h1, List.filter_cons_of_pos (by simp; omega)]
        simp
      · rw [if_neg h1, List.filter_cons_of_neg (by simp; omega)]

/-- Counting members of `ids ++ [h]` in a duplicate-free list: one more than
the members of `ids` when `h` occurs, for fresh `h`. -/
theorem count_filter_append_singleton (l : List String) (ids : List String)
    (h : String) (hnd : l.Nodup) (hnotin : h ∉ ids) :
    (l.filter (fun d => d ∈ ids ++ [h])).length =
      (l.filter (fun d => d ∈ ids)).length + (if h ∈ l then 1 else 0) := by
  induction l with
  | nil => simp
  | cons x xs ih =>
    obtain ⟨hx, hndxs⟩ := List.nodup_cons.mp hnd
    by_cases hxh : x = h
    · subst hxh
      rw [List.filter_cons_of_pos (by simp), List.filter_cons_of_neg (by simpa using hnotin)]
      simp only [List.length_cons]
      rw [ih hndxs, if_neg hx, if_pos (List.mem_cons_self x xs)]
    · have hmem2 : (if h ∈ x :: xs then (1 : Nat) else 0) = (if h ∈ xs then 1 else 0) := by
        by_cases hh : h ∈ xs
        · rw [if_pos hh, if_pos (List.mem_cons_of_mem x hh)]
        · have hnc : h ∉ x :: xs := by
            intro hcon
            rcases List.mem_cons.mp hcon with h3 | h3
            · exact hxh h3.symm
            · exact hh h3
          rw [if_neg hh, if_neg hnc]
      by_cases hxi : x ∈ ids
      · rw [List.filter_cons_of_pos (by simp [hxi]), List.filter_cons_of_pos (by simpa using hxi)]
        simp only [List.length_cons]
        rw [ih hndxs, hmem2]
        omega
      · rw [List.filter_cons_of_neg (by simp [hxi, hxh]), List.filter_cons_of_neg (by simpa using hxi)]
        rw [ih hndxs, hmem2]

/-- `addUnique` preserves `Nodup`. -/
theorem addUnique_nodup (l : List String) (x : String) (h : l.Nodup) :
    (addUnique l x).Nodup := by
  unfold addUnique
  by_cases hx : x ∈ l
  · rw [if_pos hx]
    exact h
  · rw [if_neg hx]
    refine List.Nodup.append h (List.nodup_singleton x) ?_
    intro a ha hb
    rw [List.mem_singleton] at hb
    subst hb
    exact hx ha

/-- Membership after `addUnique`. -/
theorem addUnique_mem (l : List String) (x a : String) :
    a ∈ addUnique l x ↔ a ∈ l ∨ a = x := by
  unfold addUnique
  by_cases hx : x ∈ l
  · rw [if_pos hx]
    constructor
    · exact Or.inl
    · rintro (h | rfl)
      · exact h
      · exact hx
  · rw [if_neg hx]
    simp

/-- `mapGet` success yields list membership. -/
theorem mapGet_some_mem (m : List (String × α)) (k : String) (v : α)
    (h : mapGet m k = some v) : (k, v) ∈ m := by
  induction m with
  | nil => simp [mapGet] at h
  | cons p rest ih =>
    obtain ⟨k', v'⟩ := p
    by_cases hk : k' = k
    · subst hk
      have hv : v' = v := by
        simpa [mapGet] using h
      subst hv
      exact List.mem_cons_self _ _
    · simp only [mapGet, if_neg hk] at h
      exact List.mem_cons_of_mem _ (ih h)

/-- Key membership after `mapSet`. -/
theorem mem_mapKeys_mapSet (m : List (String × α)) (k q : String) (v : α) :
    q ∈ mapKeys (mapSet m k v) ↔ q ∈ mapKeys m ∨ q = k := by
  rw [mapKeys_mapSet]
  by_cases h : k ∈ mapKeys m
  · rw [if_pos h]
    constructor
    · exact Or.inl
    · rintro (hq | rfl)
      · exact hq
      · exact h
  · rw [if_neg h]
    simp

/-- Bindings of the first `buildDependencyGraph` pass are fresh order nodes. -/
theorem buildNodes_get (workOrders : List WorkOrder) (k : String) (nd : GraphNode)
    (h : mapGet (buildNodes workOrders) k = some nd) :
    ∃ o ∈ workOrders, o.docId = k ∧
      nd = { workOrder := o
             dependencies := dedup o.data.dependsOnWorkOrderIds
             dependents := []
             inDegree := o.data.dependsOnWorkOrderIds.length } := by
  unfold buildNodes at h
  suffices hgen : ∀ (os : List WorkOrder) (m : List (String × GraphNode)),
      mapGet (os.foldl (fun m order => mapSet m order.docId
        { workOrder := order
          dependencies := dedup order.data.dependsOnWorkOrderIds
          dependents := []
          inDegree := order.data.dependsOnWorkOrderIds.length }) m) k = some nd →
      mapGet m k = some nd ∨ ∃ o ∈ os, o.docId = k ∧
        nd = { workOrder := o
               dependencies := dedup o.data.dependsOnWorkOrderIds
               dependents := []
               inDegree := o.data.dependsOnWorkOrderIds.length } by
    rcases hgen workOrders [] h with hc | hc
    · simp [mapGet] at hc
    · exact hc
  intro os
  induction os with
  | nil => intro m hm; exact Or.inl hm
  | cons o os2 ih =>
    intro m hm
    rcases ih _ hm with hc | ⟨o2, ho2, h1, h2⟩
    · by_cases hk : o.docId = k
      · subst hk
        rw [mapGet_mapSet_self] at hc
        exact Or.inr ⟨o, List.mem_cons_self o os2, rfl, (Option.some.injEq .. ▸ hc).symm⟩
      · rw [mapGet_mapSet_ne _ _ _ _ (fun hh => hk hh.symm)] at hc
        exact Or.inl hc
    · exact Or.inr ⟨o2, List.mem_cons_of_mem o ho2, h1, h2⟩

/-- Keys of the first pass are exactly the order ids. -/
theorem buildNodes_mem_keys (workOrders : List WorkOrder) (k : String) :
    k ∈ mapKeys (buildNodes workOrders) ↔ k ∈ workOrders.map (·.docId) := by
  unfold buildNodes
  suffices hgen : ∀ (os : List WorkOrder) (m : List (String × GraphNode)),
      k ∈ mapKeys (os.foldl (fun m order => mapSet m order.docId
        { workOrder := order
          dependencies := dedup order.data.dependsOnWorkOrderIds
          dependents := []
          inDegree := order.data.dependsOnWorkOrderIds.length }) m) ↔
        k ∈ mapKeys m ∨ k ∈ os.map (·.docId) by
    rw [hgen workOrders []]
    simp [mapKeys]
  intro os
  induction os with
  | nil => intro m; simp
  | cons o os2 ih =>
    intro m
    rw [List.foldl_cons, ih, mem_mapKeys_mapSet]
    simp only [List.map_cons, List.mem_cons]
    constructor
    · rintro ((hm | rfl) | hos)
      · exact Or.inl hm
      · exact Or.inr (Or.inl rfl)
      · exact Or.inr (Or.inr hos)
    · rintro (hm | (heq | hos))
      · exact Or.inl (Or.inl hm)
      · exact Or.inl (Or.inr heq)
      · exact Or.inr hos

/-- First-pass keys are duplicate-free. -/
theorem buildNodes_keys_nodup (workOrders : List WorkOrder) :
    (mapKeys (buildNodes workOrders)).Nodup := by
  unfold buildNodes
  suffices hgen : ∀ (os : List WorkOrder) (m : List (String × GraphNode)),
      (mapKeys m).Nodup →
      (mapKeys (os.foldl (fun m order => mapSet m order.docId
        { workOrder := order
          dependencies := dedup order.data.dependsOnWorkOrderIds
          dependents := []
          inDegree := order.data.dependsOnWorkOrderIds.length }) m)).Nodup by
    exact hgen workOrders [] (by simp [mapKeys])
  intro os
  induction os with
  | nil => intro m hm; exact hm
  | cons o os2 ih =>
    intro m hm
    rw [List.foldl_cons]
    refine ih _ ?_
    rw [mapKeys_mapSet]
    by_cases h : o.docId ∈ mapKeys m
    · rw [if_pos h]
      exact hm
    · rw [if_neg h]
      refine List.Nodup.append hm (List.nodup_singleton _) ?_
      intro a ha hb
      rw [List.mem_singleton] at hb
      subst hb
      exact h ha

/-- Folding `addEdgeStep` over an error is the error. -/
theorem foldl_addEdgeStep_error (id : String) (deps : List String)
    (e : SchedulerError) :
    deps.foldl (addEdgeStep id) (Except.error e) = Except.error e := by
  induction deps with
  | nil => rfl
  | cons d ds ih =>
    rw [List.foldl_cons]
    exact ih

/-- The second-pass dependency fold preserves the graph skeleton, keeps keys
fixed, and only adds justified reverse edges. -/
theorem addEdgeFold_inv (m0 : List (String × GraphNode)) (id : String)
    (node : GraphNode) (hid : mapGet m0 id = some node) :
    ∀ (deps : List String), (∀ d ∈ deps, d ∈ node.dependencies) →
    ∀ (m : List (String × GraphNode)),
      mapKeys m = mapKeys m0 →
      (∀ k nd, mapGet m k = some nd → ∃ nd0, mapGet m0 k = some nd0 ∧
        nd.workOrder = nd0.workOrder ∧ nd.dependencies = nd0.dependencies ∧
        nd.inDegree = nd0.inDegree) →
      (∀ k nd, mapGet m k = some nd → nd.dependents.Nodup ∧
        ∀ t ∈ nd.dependents, ∃ tn, mapGet m0 t = some tn ∧ k ∈ tn.dependencies) →
    (∃ e, deps.foldl (addEdgeStep id) (Except.ok m) = Except.error e) ∨
    (∃ m2, deps.foldl (addEdgeStep id) (Except.ok m) = Except.ok m2 ∧
      mapKeys m2 = mapKeys m0 ∧
      (∀ k nd, mapGet m2 k = some nd → ∃ nd0, mapGet m0 k = some nd0 ∧
        nd.workOrder = nd0.workOrder ∧ nd.dependencies = nd0.dependencies ∧
        nd.inDegree = nd0.inDegree) ∧
      (∀ k nd, mapGet m2 k = some nd → nd.dependents.Nodup ∧
        ∀ t ∈ nd.dependents, ∃ tn, mapGet m0 t = some tn ∧ k ∈ tn.dependencies) ∧
      (∀ d ∈ deps, d ∈ mapKeys m0)) := by
  intro deps
  induction deps with
  | nil =>
    intro _ m hkeys hskel hdep
    exact Or.inr ⟨m, rfl, hkeys, hskel, hdep, by simp⟩
  | cons d ds ih =>
    intro hdeps m hkeys hskel hdep
    rw [List.foldl_cons]
    cases hd : mapGet m d with
    | none =>
      left
      refine ⟨SchedulerError.missingDependency id d, ?_⟩
      rw [show addEdgeStep id (Except.ok m) d = Except.error (.missingDependency id d) from
        by simp [addEdgeStep, Except.bind, hd]]
      exact foldl_addEdgeStep_error id ds _
    | some depNode =>
      rw [show addEdgeStep id (Except.ok m) d =
          Except.ok (mapSet m d { depNode with dependents := addUnique depNode.dependents id }) from
        by simp [addEdgeStep, Except.bind, hd]]
      have hdkeys : d ∈ mapKeys m := mapGet_some_mem_keys m d depNode hd
      have hkeys2 : mapKeys (mapSet m d { depNode with dependents := addUnique depNode.dependents id }) =
          mapKeys m0 := by
        rw [mapKeys_mapSet, if_pos hdkeys]
        exact hkeys
      have hskel2 : ∀ k nd, mapGet (mapSet m d { depNode with dependents := addUnique depNode.dependents id }) k = some nd →
          ∃ nd0, mapGet m0 k = some nd0 ∧ nd.workOrder = nd0.workOrder ∧
            nd.dependencies = nd0.dependencies ∧ nd.inDegree = nd0.inDegree := by
        intro k nd hk
        by_cases hkd : k = d
        · subst hkd
          rw [mapGet_mapSet_self] at hk
          have hnd : nd = { depNode with dependents := addUnique depNode.dependents id } :=
            (Option.some.inj hk).symm
          subst hnd
          obtain ⟨nd0, h0, h1, h2, h3⟩ := hskel k depNode hd
          exact ⟨nd0, h0, h1, h2, h3⟩
        · rw [mapGet_mapSet_ne _ _ _ _ hkd] at hk
          exact hskel k nd hk
      have hdep2 : ∀ k nd, mapGet (mapSet m d { depNode with dependents := addUnique depNode.dependents id }) k = some nd →
          nd.dependents.Nodup ∧
          ∀ t ∈ nd.dependents, ∃ tn, mapGet m0 t = some tn ∧ k ∈ tn.dependencies := by
        intro k nd hk
        by_cases hkd : k = d
        · subst hkd
          rw [mapGet_mapSet_self] at hk
          have hnd : nd = { depNode with dependents := addUnique depNode.dependents id } :=
            (Option.some.inj hk).symm
          subst hnd
          obtain ⟨hnodup, hmem⟩ := hdep k depNode hd
          constructor
          · exact addUnique_nodup _ _ hnodup
          · intro t ht
            rcases (addUnique_mem _ _ _).mp ht with hold | heq
            · exact hmem t hold
            · subst heq
              exact ⟨node, hid, hdeps k (List.mem_cons_self k ds)⟩
        · rw [mapGet_mapSet_ne _ _ _ _ hkd] at hk
          exact hdep k nd hk
      rcases ih (fun x hx => hdeps x (List.mem_cons_of_mem d hx)) _ hkeys2 hskel2 hdep2 with
        ⟨e, he⟩ | ⟨m2, hm2, ha, hb, hc, hd2⟩
      · exact Or.inl ⟨e, he⟩
      · refine Or.inr ⟨m2, hm2, ha, hb, hc, ?_⟩
        intro x hx
        rcases List.mem_cons.mp hx with rfl | hx2
        · rw [← hkeys]
          exact hdkeys
        · exact hd2 x hx2

/-- The second pass preserves the skeleton and justifies every reverse edge. -/
theorem addReverseEdges_inv (m0 : List (String × GraphNode)) :
    ∀ (entries : List (String × GraphNode)),
      (∀ p ∈ entries, mapGet m0 p.1 = some p.2) →
    ∀ (m : List (String × GraphNode)),
      mapKeys m = mapKeys m0 →
      (∀ k nd, mapGet m k = some nd → ∃ nd0, mapGet m0 k = some nd0 ∧
        nd.workOrder = nd0.workOrder ∧ nd.dependencies = nd0.dependencies ∧
        nd.inDegree = nd0.inDegree) →
      (∀ k nd, mapGet m k = some nd → nd.dependents.Nodup ∧
        ∀ t ∈ nd.dependents, ∃ tn, mapGet m0 t = some tn ∧ k ∈ tn.dependencies) →
    ∀ g, addReverseEdges entries m = Except.ok g →
      mapKeys g = mapKeys m0 ∧
      (∀ k nd, mapGet g k = some nd → ∃ nd0, mapGet m0 k = some nd0 ∧
        nd.workOrder = nd0.workOrder ∧ nd.dependencies = nd0.dependencies ∧
        nd.inDegree = nd0.inDegree) ∧
      (∀ k nd, mapGet g k = some nd → nd.dependents.Nodup ∧
        ∀ t ∈ nd.dependents, ∃ tn, mapGet m0 t = some tn ∧ k ∈ tn.dependencies) ∧
      (∀ p ∈ entries, ∀ d ∈ p.2.dependencies, d ∈ mapKeys m0) := by
  intro entries
  induction entries with
  | nil =>
    intro _ m hkeys hskel hdep g hok
    have hg : m = g := by
      simpa [addReverseEdges] using hok
    subst hg
    exact ⟨hkeys, hskel, hdep, by simp⟩
  | cons p rest ih =>
    intro hent m hkeys hskel hdep g hok
    obtain ⟨id, node⟩ := p
    have hid : mapGet m0 id = some node := hent (id, node) (List.mem_cons_self _ _)
    rw [show addReverseEdges ((id, node) :: rest) m =
        (node.dependencies.foldl (addEdgeStep id) (Except.ok m)).bind
          (fun m2 => addReverseEdges rest m2) from rfl] at hok
    rcases addEdgeFold_inv m0 id node hid node.dependencies (fun d hd => hd) m
        hkeys hskel hdep with ⟨e, he⟩ | ⟨m2, hm2, ha, hb, hc, hd2⟩
    · rw [he] at hok
      exact absurd hok (by simp [Except.bind])
    · rw [hm2] at hok
      simp only [Except.bind] at hok
      obtain ⟨ka, kb, kc, kd⟩ := ih (fun q hq => hent q (List.mem_cons_of_mem _ hq))
        m2 ha hb hc g hok
      refine ⟨ka, kb, kc, ?_⟩
      intro q hq
      rcases List.mem_cons.mp hq with rfl | hq2
      · exact hd2
      · exact kd q hq2

/-- Well-formedness of a successfully built dependency graph: keys are
duplicate-free; every node is keyed by its order's id, carries the
deduplicated dependency set, the raw array length as in-degree,
duplicate-free edge lists, resolvable dependencies, and reverse edges
justified by forward edges. -/
theorem buildDependencyGraph_ok_wf (workOrders : List WorkOrder)
    (g : DependencyGraph) (hok : buildDependencyGraph workOrders = Except.ok g) :
    (mapKeys g.nodes).Nodup ∧
    ∀ k nd, mapGet g.nodes k = some nd →
      nd.workOrder.docId = k ∧
      nd.dependencies = dedup nd.workOrder.data.dependsOnWorkOrderIds ∧
      nd.inDegree = nd.workOrder.data.dependsOnWorkOrderIds.length ∧
      nd.dependencies.Nodup ∧
      nd.dependents.Nodup ∧
      (∀ d ∈ nd.dependencies, (mapGet g.nodes d).isSome) ∧
      (∀ t ∈ nd.dependents, ∃ tn, mapGet g.nodes t = some tn ∧ k ∈ tn.dependencies) := by
  simp only [buildDependencyGraph] at hok
  cases hadd : addReverseEdges (buildNodes workOrders) (buildNodes workOrders) with
  | error e =>
    rw [hadd] at hok
    simp only [Except.map] at hok
    exact Except.noConfusion hok
  | ok nodes2 =>
    rw [hadd] at hok
    simp only [Except.map] at hok
    injection hok with h2
    subst h2
    obtain ⟨ka, kb, kc, kd⟩ := addReverseEdges_inv (buildNodes workOrders)
      (buildNodes workOrders)
      (fun p hp => mapGet_of_mem_nodup _ _ _ (buildNodes_keys_nodup workOrders) hp)
      (buildNodes workOrders) rfl
      (fun k nd h => ⟨nd, h, rfl, rfl, rfl⟩)
      (fun k nd h => by
        obtain ⟨o, ho, hk, hnd⟩ := buildNodes_get workOrders k nd h
        subst hnd
        exact ⟨by simp, by simp⟩)
      nodes2 hadd
    constructor
    · rw [show ({ nodes := nodes2, allIds := workOrders.map (·.docId) } : DependencyGraph).nodes
          = nodes2 from rfl, ka]
      exact buildNodes_keys_nodup workOrders
    · intro k nd h
      have h' : mapGet nodes2 k = some nd := h
      obtain ⟨nd0, h0, hwo, hdeps, hdeg⟩ := kb k nd h'
      obtain ⟨o, ho, hk, hnd0⟩ := buildNodes_get workOrders k nd0 h0
      have hdeps0 : nd0.dependencies = dedup o.data.dependsOnWorkOrderIds := by
        rw [hnd0]
      have hwo0 : nd0.workOrder = o := by
        rw [hnd0]
      have hdeg0 : nd0.inDegree = o.data.dependsOnWorkOrderIds.length := by
        rw [hnd0]
      refine ⟨?_, ?_, ?_, ?_, (kc k nd h').1, ?_, ?_⟩
      · rw [hwo, hwo0, hk]
      · rw [hdeps, hdeps0, hwo, hwo0]
      · rw [hdeg, hdeg0, hwo, hwo0]
      · rw [hdeps, hdeps0]
        exact dedup_nodup _
      · intro d hd
        have hd0 : d ∈ nd0.dependencies := hdeps ▸ hd
        have hmem0 : (k, nd0) ∈ buildNodes workOrders := mapGet_some_mem _ _ _ h0
        have hdk : d ∈ mapKeys (buildNodes workOrders) := kd (k, nd0) hmem0 d hd0
        rw [mapGet_isSome_iff]
        rw [show ({ nodes := nodes2, allIds := workOrders.map (·.docId) } : DependencyGraph).nodes
            = nodes2 from rfl, ka]
        exact hdk
      · intro t ht
        obtain ⟨tn, htn, hktn⟩ := (kc k nd h').2 t ht
        have htk : t ∈ mapKeys nodes2 := by
          rw [ka]
          exact mapGet_some_mem_keys _ _ _ htn
        have hsome : (mapGet nodes2 t).isSome := (mapGet_isSome_iff _ _).mpr htk
        cases htn2 : mapGet nodes2 t with
        | none => rw [htn2] at hsome; exact Bool.noConfusion hsome
        | some tn2 =>
          obtain ⟨tn0, ht0, _, htdeps, _⟩ := kb t tn2 htn2
          have : tn0 = tn := by
            rw [htn] at ht0
            exact (Option.some.inj ht0).symm
          refine ⟨tn2, rfl, ?_⟩
          rw [htdeps, this]
          exact hktn

/-- Dependencies of already-appended orders stay inside the appended ids. -/
theorem processed_deps_closed (nodes : List (String × GraphNode))
    (result : List WorkOrder)
    (hI2 : ∀ x ∈ result, ∃ nd, mapGet nodes x.docId = some nd ∧ nd.workOrder = x)
    (hI6 : ∀ pre x suf, result = pre ++ x :: suf → ∀ nd, mapGet nodes x.docId = some nd →
      ∀ d ∈ nd.dependencies, d ∈ pre.map (·.docId)) :
    ∀ id ∈ result.map (·.docId), ∀ tn, mapGet nodes id = some tn →
      ∀ d ∈ tn.dependencies, d ∈ result.map (·.docId) := by
  intro id hid tn htn d hd
  obtain ⟨x, hx, hxid⟩ := List.mem_map.mp hid
  obtain ⟨pre, suf, hsplit⟩ := List.append_of_mem hx
  have hdp : d ∈ pre.map (·.docId) := hI6 pre x suf hsplit tn (hxid ▸ htn) d hd
  obtain ⟨y, hy, hyid⟩ := List.mem_map.mp hdp
  exact List.mem_map.mpr ⟨y, by rw [hsplit]; exact List.mem_append_left _ hy, hyid⟩

/-- One iteration of the Kahn loop preserves `KahnInv`: popping the head of
the sorted ready queue, appending its work order and processing its
dependents. -/
theorem kahnLoop_inv_step (nodes : List (String × GraphNode)) (hWF : WFNodes nodes)
    (inDegrees : List (String × Int)) (queue : List String) (result : List WorkOrder)
    (hinv : KahnInv nodes inDegrees queue result)
    (h : String) (rest : List String) (hs : sortReady nodes queue = h :: rest)
    (node : GraphNode) (hn : mapGet nodes h = some node) :
    KahnInv nodes (processDependents node.dependents inDegrees rest).1
      (processDependents node.dependents inDegrees rest).2
      (result ++ [node.workOrder]) := by
  obtain ⟨hWFnd, hWFn⟩ := hWF
  unfold KahnInv at hinv
  obtain ⟨hpost, hQnd, hQsome, hQfresh, hI4, hI5⟩ := hinv
  unfold KahnPost at hpost
  obtain ⟨hI1, hI2, hI6⟩ := hpost
  have hperm : (h :: rest).Perm queue := hs ▸ sortReady_perm nodes queue
  have hhq : h ∈ queue := hperm.mem_iff.mp (List.mem_cons_self h rest)
  have hsortnd : (h :: rest).Nodup := (hperm.nodup_iff).mpr hQnd
  obtain ⟨hhrest, hrestnd⟩ := List.nodup_cons.mp hsortnd
  have hrestq : ∀ q ∈ rest, q ∈ queue := fun q hq =>
    hperm.mem_iff.mp (List.mem_cons_of_mem h hq)
  obtain ⟨hdoc, hdepseq, hdegeq, hdepsnd, hdepntnd, hdepssome, hrev⟩ := hWFn h node hn
  obtain ⟨hdeg0, hdepsdone0⟩ := hI5 h hhq
  have hdepsdone : ∀ d ∈ node.dependencies, d ∈ result.map (·.docId) :=
    hdepsdone0 node hn
  have hnotin : h ∉ result.map (·.docId) := hQfresh h hhq
  have hclosed := processed_deps_closed nodes result hI2 hI6
  have hndepres : ∀ x, x ∈ result.map (·.docId) → x ∉ node.dependents := by
    intro x hx hdep
    obtain ⟨tn, htn, hhtn⟩ := hrev x hdep
    exact hnotin (hclosed x hx tn htn h hhtn)
  have hndeprest : ∀ q ∈ rest, q ∉ node.dependents := by
    intro q hq hdep
    obtain ⟨tn, htn, hhtn⟩ := hrev q hdep
    exact hnotin ((hI5 q (hrestq q hq)).2 tn htn h hhtn)
  have hndeph : h ∉ node.dependents := by
    intro hdep
    obtain ⟨tn, htn, hhtn⟩ := hrev h hdep
    rw [hn] at htn
    have htneq : tn = node := (Option.some.inj htn).symm
    subst htneq
    exact hnotin (hdepsdone h hhtn)
  obtain ⟨pget, pqueue⟩ := processDependents_spec node.dependents hdepntnd inDegrees rest
  have hids' : (result ++ [node.workOrder]).map (·.docId) =
      result.map (·.docId) ++ [h] := by
    simp [hdoc]
  have hks : ∀ k nd, mapGet nodes k = some nd → k ∈ node.dependents →
      h ∈ nd.dependencies := by
    intro k nd hk hdep
    obtain ⟨tn, htn, hhtn⟩ := hrev k hdep
    rw [hk] at htn
    have htneq : tn = nd := (Option.some.inj htn).symm
    subst htneq
    exact hhtn
  have hcnt : ∀ nd : GraphNode, nd.dependencies.Nodup →
      (nd.dependencies.filter
        (fun d => d ∈ (result ++ [node.workOrder]).map (·.docId))).length =
      (nd.dependencies.filter (fun d => d ∈ result.map (·.docId))).length +
        (if h ∈ nd.dependencies then 1 else 0) := by
    intro nd hnd2
    simp only [hids']
    exact count_filter_append_singleton nd.dependencies (result.map (·.docId)) h hnd2 hnotin
  have hP1 : ((result ++ [node.workOrder]).map (·.docId)).Nodup := by
    rw [hids']
    refine List.Nodup.append hI1 (List.nodup_singleton h) ?_
    intro a ha hb
    rw [List.mem_singleton] at hb
    subst hb
    exact hnotin ha
  have hP2 : ∀ x ∈ result ++ [node.workOrder],
      ∃ nd, mapGet nodes x.docId = some nd ∧ nd.workOrder = x := by
    intro x hx
    rcases List.mem_append.mp hx with hx | hx
    · exact hI2 x hx
    · rw [List.mem_singleton] at hx
      subst hx
      exact ⟨node, by rw [hdoc]; exact hn, rfl⟩
  have hP6 : ∀ pre x suf, result ++ [node.workOrder] = pre ++ x :: suf →
      ∀ nd, mapGet nodes x.docId = some nd →
      ∀ d ∈ nd.dependencies, d ∈ pre.map (·.docId) := by
    intro pre x suf hsplit nd hnd d hd
    rcases append_singleton_split result node.workOrder pre x suf hsplit with
      ⟨suf2, hres, _⟩ | ⟨hpre, hx, _⟩
    · exact hI6 pre x suf2 hres nd hnd d hd
    · subst hpre
      subst hx
      rw [hdoc, hn] at hnd
      have hndeq : nd = node := (Option.some.inj hnd).symm
      subst hndeq
      exact hdepsdone d hd
  have hP3 : (processDependents node.dependents inDegrees rest).2.Nodup := by
    rw [pqueue]
    refine List.Nodup.append hrestnd (List.Nodup.filter _ hdepntnd) ?_
    intro a ha hb
    exact hndeprest a ha (List.mem_filter.mp hb).1
  have hP4 : ∀ q ∈ (processDependents node.dependents inDegrees rest).2,
      (mapGet nodes q).isSome := by
    rw [pqueue]
    intro q hq
    rcases List.mem_append.mp hq with hq | hq
    · exact hQsome q (hrestq q hq)
    · obtain ⟨tn, htn, _⟩ := hrev q (List.mem_filter.mp hq).1
      rw [htn]
      rfl
  have hP5 : ∀ q ∈ (processDependents node.dependents inDegrees rest).2,
      q ∉ (result ++ [node.workOrder]).map (·.docId) := by
    rw [pqueue, hids']
    intro q hq hmem
    rcases List.mem_append.mp hmem with hm | hm
    · rcases List.mem_append.mp hq with hq2 | hq2
      · exact hQfresh q (hrestq q hq2) hm
      · exact hndepres q hm (List.mem_filter.mp hq2).1
    · rw [List.mem_singleton] at hm
      subst hm
      rcases List.mem_append.mp hq with hq2 | hq2
      · exact hhrest hq2
      · exact hndeph (List.mem_filter.mp hq2).1
  have hPI4 : ∀ k nd, mapGet nodes k = some nd →
      ∃ v : Int, mapGet (processDependents node.dependents inDegrees rest).1 k = some v ∧
        (nd.workOrder.data.dependsOnWorkOrderIds.length : Int) -
          ((nd.dependencies.filter
            (fun d => d ∈ (result ++ [node.workOrder]).map (·.docId))).length : Int) ≤ v := by
    intro k nd hk
    obtain ⟨v, hv, hle⟩ := hI4 k nd hk
    obtain ⟨_, _, _, hknd, _, _, _⟩ := hWFn k nd hk
    have hcntk := hcnt nd hknd
    rw [pget k]
    by_cases hdep : k ∈ node.dependents
    · rw [if_pos hdep, hv]
      simp only [Option.getD_some]
      refine ⟨v - 1, rfl, ?_⟩
      have hhk : h ∈ nd.dependencies := hks k nd hk hdep
      rw [hcntk, if_pos hhk]
      push_cast
      omega
    · rw [if_neg hdep]
      refine ⟨v, hv, ?_⟩
      rw [hcntk]
      by_cases hhk : h ∈ nd.dependencies
      · rw [if_pos hhk]
        push_cast
        omega
      · rw [if_neg hhk]
        push_cast
        omega
  have hPI5 : ∀ q ∈ (processDependents node.dependents inDegrees rest).2,
      mapGet (processDependents node.dependents inDegrees rest).1 q = some 0 ∧
      ∀ nd, mapGet nodes q = some nd → ∀ d ∈ nd.dependencies,
        d ∈ (result ++ [node.workOrder]).map (·.docId) := by
    rw [pqueue]
    intro q hq
    rcases List.mem_append.mp hq with hq | hq
    · have hndep : q ∉ node.dependents := hndeprest q hq
      have hq0 := hI5 q (hrestq q hq)
      constructor
      · rw [pget q, if_neg hndep]
        exact hq0.1
      · intro nd hqnd d hd
        rw [hids']
        exact List.mem_append_left _ (hq0.2 nd hqnd d hd)
    · have hdep : q ∈ node.dependents := (List.mem_filter.mp hq).1
      have hcond : (mapGet inDegrees q).getD 0 = 1 := by
        have hc := (List.mem_filter.mp hq).2
        simpa using hc
      constructor
      · rw [pget q, if_pos hdep, hcond]
        norm_num
      · intro nd hqnd d hd
        obtain ⟨v, hv, hle⟩ := hI4 q nd hqnd
        have hv1 : v = 1 := by
          rw [hv] at hcond
          simpa using hcond
        subst hv1
        obtain ⟨_, hdeps2, _, hknd, _, _, _⟩ := hWFn q nd hqnd
        have hhk : h ∈ nd.dependencies := hks q nd hqnd hdep
        have hcntk := hcnt nd hknd
        have hlen : nd.dependencies.length ≤
            nd.workOrder.data.dependsOnWorkOrderIds.length := by
          rw [hdeps2]
          exact dedup_length_le _
        have hub := List.length_filter_le
          (fun d => d ∈ (result ++ [node.workOrder]).map (·.docId)) nd.dependencies
        have hfl : (nd.dependencies.filter
            (fun d => d ∈ (result ++ [node.workOrder]).map (·.docId))).length =
            nd.dependencies.length := by
          rw [hcntk, if_pos hhk] at hub ⊢
          omega
        have hall := filter_length_eq_all nd.dependencies _ hfl d hd
        simpa using hall
  exact ⟨⟨hP1, hP2, hP6⟩, hP3, hP4, hP5, hPI4, hPI5⟩

/-- Running the Kahn loop from any invariant state yields a result satisfying
`KahnPost`, whatever the fuel. -/
theorem kahnLoop_post (nodes : List (String × GraphNode)) (hWF : WFNodes nodes) :
    ∀ (fuel : Nat) (inDegrees : List (String × Int)) (queue : List String)
      (result : List WorkOrder), KahnInv nodes inDegrees queue result →
      KahnPost nodes (kahnLoop nodes fuel inDegrees queue result).2 := by
  intro fuel
  induction fuel with
  | zero =>
    intro inDegrees queue result hinv
    exact hinv.1
  | succ fuel ih =>
    intro inDegrees queue result hinv
    cases hs : sortReady nodes queue with
    | nil =>
      have hres : kahnLoop nodes (fuel + 1) inDegrees queue result =
          (inDegrees, result) := by
        conv_lhs => unfold kahnLoop
        rw [hs]
      rw [hres]
      exact hinv.1
    | cons h rest =>
      have hhq : h ∈ queue :=
        ((hs ▸ sortReady_perm nodes queue).mem_iff).mp (List.mem_cons_self h rest)
      have hsome : (mapGet nodes h).isSome := hinv.2.2.1 h hhq
      cases hn : mapGet nodes h with
      | none =>
        rw [hn] at hsome
        exact absurd hsome (by simp)
      | some node =>
        have hstep : kahnLoop nodes (fuel + 1) inDegrees queue result =
            kahnLoop nodes fuel (processDependents node.dependents inDegrees rest).1
              (processDependents node.dependents inDegrees rest).2
              (result ++ [node.workOrder]) := by
          conv_lhs => unfold kahnLoop
          rw [hs]
          simp only [hn]
        rw [hstep]
        exact ih _ _ _ (kahnLoop_inv_step nodes hWF inDegrees queue result hinv h rest hs node hn)

/-- The initial state of `topologicalSort` (raw in-degrees, zero-in-degree
ready queue, empty result) satisfies the Kahn invariant. -/
theorem kahnInit_inv (nodes : List (String × GraphNode)) (hWF : WFNodes nodes) :
    KahnInv nodes (nodes.map (fun p => (p.1, (p.2.inDegree : Int))))
      (((nodes.map (fun p => (p.1, (p.2.inDegree : Int)))).filter
        (fun p => p.2 = 0)).map (·.1)) [] := by
  obtain ⟨hWFnd, hWFn⟩ := hWF
  have hkeys : (nodes.map (fun p => (p.1, (p.2.inDegree : Int)))).map (·.1) =
      mapKeys nodes := by
    simp [mapKeys]
  have hgetE : ∀ k, mapGet (nodes.map (fun p => (p.1, (p.2.inDegree : Int)))) k =
      (mapGet nodes k).map (fun nd => (nd.inDegree : Int)) := by
    intro k
    exact mapGet_map_values nodes (fun p => (p.2.inDegree : Int)) k
  have hq : ∀ q ∈ ((nodes.map (fun p => (p.1, (p.2.inDegree : Int)))).filter
      (fun p => p.2 = 0)).map (·.1),
      ∃ nd, mapGet nodes q = some nd ∧ (nd.inDegree : Int) = 0 := by
    intro q hqm
    obtain ⟨p, hp, hp1⟩ := List.mem_map.mp hqm
    obtain ⟨hpmem, hp0⟩ := List.mem_filter.mp hp
    obtain ⟨r, hr, hrp⟩ := List.mem_map.mp hpmem
    have hq1 : q = r.1 := by
      rw [← hp1, ← hrp]
    have hget : mapGet nodes q = some r.2 := by
      apply mapGet_of_mem_nodup nodes q r.2 hWFnd
      rw [hq1]
      simpa using hr
    refine ⟨r.2, hget, ?_⟩
    have h2 : p.2 = (0 : Int) := by simpa using hp0
    rw [← hrp] at h2
    simpa using h2
  unfold KahnInv KahnPost
  refine ⟨⟨by simp, by simp, ?_⟩, ?_, ?_, ?_, ?_, ?_⟩
  · intro pre x suf hsp
    obtain ⟨-, h2⟩ := List.append_eq_nil.mp hsp.symm
    exact absurd h2 (List.cons_ne_nil x suf)
  · have hsub : (((nodes.map (fun p => (p.1, (p.2.inDegree : Int)))).filter
        (fun p => p.2 = 0)).map (·.1)).Sublist
        ((nodes.map (fun p => (p.1, (p.2.inDegree : Int)))).map (·.1)) :=
      List.Sublist.map (fun x : String × Int => x.1) (List.filter_sublist _)
    rw [hkeys] at hsub
    exact List.Nodup.sublist hsub hWFnd
  · intro q hqm
    obtain ⟨nd, hget, _⟩ := hq q hqm
    rw [hget]
    rfl
  · intro q hqm
    simp
  · intro k nd hk
    refine ⟨(nd.inDegree : Int), ?_, ?_⟩
    · rw [hgetE k, hk]
      rfl
    · obtain ⟨_, _, hdeg, _, _, _, _⟩ := hWFn k nd hk
      rw [hdeg]
      simp
  · intro q hqm
    obtain ⟨nd, hget, hdeg0⟩ := hq q hqm
    constructor
    · rw [hgetE q, hget]
      simp [hdeg0]
    · intro nd2 hnd2 d hd
      rw [hget] at hnd2
      have hndeq : nd = nd2 := Option.some.inj hnd2
      subst hndeq
      obtain ⟨_, hdeps, hdeg, _, _, _, _⟩ := hWFn q nd hget
      have hlen0 : nd.workOrder.data.dependsOnWorkOrderIds.length = 0 := by
        rw [hdeg] at hdeg0
        exact_mod_cast hdeg0
      have hraw : nd.workOrder.data.dependsOnWorkOrderIds = [] :=
        List.length_eq_zero.mp hlen0
      rw [hdeps, hraw] at hd
      simp [dedup, dedupAux] at hd

/-- A successful `topologicalSort` of a well-formed graph delivers every node's
work order exactly once, with each order's dependencies strictly before it. -/
theorem topologicalSort_ok_spec (g : DependencyGraph) (hWF : WFNodes g.nodes)
    (sorted : List WorkOrder) (hok : topologicalSort g = Except.ok sorted) :
    KahnPost g.nodes sorted ∧
    ∀ k nd, mapGet g.nodes k = some nd → nd.workOrder ∈ sorted := by
  simp only [topologicalSort] at hok
  by_cases hlen : (kahnLoop g.nodes
      (sumDeg (g.nodes.map (fun p => (p.1, (p.2.inDegree : Int)))) +
        (((g.nodes.map (fun p => (p.1, (p.2.inDegree : Int)))).filter
          (fun p => p.2 = 0)).map (·.1)).length + 1)
      (g.nodes.map (fun p => (p.1, (p.2.inDegree : Int))))
      (((g.nodes.map (fun p => (p.1, (p.2.inDegree : Int)))).filter
        (fun p => p.2 = 0)).map (·.1)) []).2.length = g.nodes.length
  · rw [if_pos hlen] at hok
    injection hok with hok2
    have hpost : KahnPost g.nodes sorted := by
      rw [← hok2]
      exact kahnLoop_post g.nodes hWF _ _ _ _ (kahnInit_inv g.nodes hWF)
    have hslen : sorted.length = g.nodes.length := by
      rw [← hok2]
      exact hlen
    refine ⟨hpost, ?_⟩
    obtain ⟨hnd, hI2, _⟩ := hpost
    have hsubset : sorted.map (·.docId) ⊆ mapKeys g.nodes := by
      intro id hid
      obtain ⟨x, hx, hxid⟩ := List.mem_map.mp hid
      obtain ⟨nd, hget, _⟩ := hI2 x hx
      rw [← hxid]
      exact mapGet_some_mem_keys _ _ _ hget
    have hkeylen : (mapKeys g.nodes).length = g.nodes.length := by
      simp [mapKeys]
    have hsp : (sorted.map (·.docId)).Subperm (mapKeys g.nodes) :=
      List.Nodup.subperm hnd hsubset
    have hperm : (sorted.map (·.docId)).Perm (mapKeys g.nodes) := by
      refine hsp.perm_of_length_le ?_
      rw [hkeylen, List.length_map, hslen]
    intro k nd hget
    have hkmem : k ∈ mapKeys g.nodes := mapGet_some_mem_keys _ _ _ hget
    have hkid : k ∈ sorted.map (·.docId) := hperm.mem_iff.mpr hkmem
    obtain ⟨x, hx, hxid⟩ := List.mem_map.mp hkid
    obtain ⟨nd2, hget2, hwo2⟩ := hI2 x hx
    rw [hxid] at hget2
    rw [hget] at hget2
    have hndeq : nd = nd2 := Option.some.inj hget2
    rw [hndeq, hwo2]
    exact hx
  · rw [if_neg hlen] at hok
    exact Except.noConfusion hok

/-- The seed never exceeds a `max` fold. -/
theorem le_foldl_max (l : List Int) : ∀ d : Int, d ≤ l.foldl max d := by
  induction l with
  | nil => intro d; exact le_refl d
  | cons y ys ih => intro d; exact le_trans (le_max_left d y) (ih (max d y))

/-- No member exceeds a `max` fold. -/
theorem mem_le_foldl_max (l : List Int) : ∀ d x : Int, x ∈ l → x ≤ l.foldl max d := by
  induction l with
  | nil =>
    intro d x h
    simp at h
  | cons y ys ih =>
    intro d x h
    rcases List.mem_cons.mp h with rfl | h2
    · exact le_trans (le_max_right d x) (le_foldl_max ys (max d x))
    · exact ih (max d y) x h2

/-- `maxDateTime` of a non-empty list dominates every member. -/
theorem maxDateTime_ge_mem (l : List Int) (x : Int) (hx : x ∈ l) :
    ∃ m, maxDateTime l = some m ∧ x ≤ m := by
  cases l with
  | nil => simp at hx
  | cons d ds =>
    refine ⟨ds.foldl max d, rfl, ?_⟩
    rcases List.mem_cons.mp hx with rfl | h2
    · exact le_foldl_max ds x
    · exact mem_le_foldl_max ds d x h2

/-- `calculateEarliestStart` dominates every constraint it collects. -/
theorem calculateEarliestStart_ge (ctx : CalendarCtx) (allowEarlierStart : Bool)
    (now : Int) (order : WorkOrder) (wca wote : List (String × Int)) (x : Int)
    (hx : x ∈ ((if allowEarlierStart then ([] : List Int)
        else [ctx.fromISO order.data.startDate]) ++
      (match mapGet wca order.data.workCenterId with
        | some a => [a]
        | none => ([] : List Int))) ++
        order.data.dependsOnWorkOrderIds.filterMap (fun depId => mapGet wote depId)) :
    x ≤ calculateEarliestStart ctx allowEarlierStart now order wca wote := by
  simp only [calculateEarliestStart]
  obtain ⟨m, hm, hxm⟩ := maxDateTime_ge_mem _ x hx
  rw [hm]
  exact hxm

/-- `scheduleWorkOrder` on a maintenance order, as an explicit state. -/
theorem scheduleWorkOrder_maint_eq (ctx : CalendarCtx)
    (wcIndex : List (String × WorkCenter)) (allowEarlierStart : Bool) (now : Int)
    (st : SchedState) (order : WorkOrder) (h : order.data.isMaintenance = true) :
    scheduleWorkOrder ctx wcIndex allowEarlierStart now st order =
      { workCenterAvailability := maintAvail ctx st order
        workOrderEndTimes :=
          mapSet st.workOrderEndTimes order.docId (ctx.fromISO order.data.endDate)
        warnings := st.warnings
        results := st.results ++ [maintResult ctx order] } := by
  unfold scheduleWorkOrder maintAvail maintResult
  rw [h]
  rfl

/-- `scheduleWorkOrder` on a non-maintenance order, as an explicit state. -/
theorem scheduleWorkOrder_normal_eq (ctx : CalendarCtx)
    (wcIndex : List (String × WorkCenter)) (allowEarlierStart : Bool) (now : Int)
    (st : SchedState) (order : WorkOrder) (h : order.data.isMaintenance = false) :
    scheduleWorkOrder ctx wcIndex allowEarlierStart now st order =
      { workCenterAvailability := mapSet st.workCenterAvailability
          order.data.workCenterId (schedNewEnd ctx wcIndex allowEarlierStart now st order)
        workOrderEndTimes := mapSet st.workOrderEndTimes order.docId
          (schedNewEnd ctx wcIndex allowEarlierStart now st order)
        warnings :=
          if schedWasRescheduled ctx wcIndex allowEarlierStart now st order ∧
              ctx.fromISO order.data.startDate <
                schedValidStart ctx wcIndex allowEarlierStart now st order then
            st.warnings ++ [delayWarning order.data.workOrderNumber
              (roundedMinutes (schedValidStart ctx wcIndex allowEarlierStart now st order -
                ctx.fromISO order.data.startDate))]
          else st.warnings
        results := st.results ++
          [normalResult ctx wcIndex allowEarlierStart now st order] } := by
  unfold scheduleWorkOrder normalResult schedWasRescheduled schedNewEnd schedValidStart
  rw [h]
  rfl

/-- Distinct images under a duplicate-free map identify list members. -/
theorem nodup_map_mem_inj {α β : Type} (f : α → β) (l : List α)
    (hnd : (l.map f).Nodup) (a b : α) (ha : a ∈ l) (hb : b ∈ l) (hf : f a = f b) :
    a = b := by
  induction l with
  | nil => simp at ha
  | cons x xs ih =>
    simp only [List.map_cons, List.nodup_cons] at hnd
    obtain ⟨hx, hnd2⟩ := hnd
    rcases List.mem_cons.mp ha with rfl | ha2
    · rcases List.mem_cons.mp hb with rfl | hb2
      · rfl
      · have hmem : f a ∈ xs.map f := by
          rw [hf]
          exact List.mem_map_of_mem f hb2
        exact absurd hmem hx
    · rcases List.mem_cons.mp hb with rfl | hb2
      · have hmem : f b ∈ xs.map f := by
          rw [← hf]
          exact List.mem_map_of_mem f ha2
        exact absurd hmem hx
      · exact ih hnd2 ha2 hb2

/-- Transporting a positional split backwards along an equality of mapped
lists. -/
theorem map_split {β γ : Type} (g2 : β → γ) (A : List γ) (c : γ) (B : List γ) :
    ∀ l2 : List β, l2.map g2 = A ++ c :: B →
      ∃ pre2 x2 suf2, l2 = pre2 ++ x2 :: suf2 ∧ pre2.map g2 = A ∧ g2 x2 = c ∧
        suf2.map g2 = B := by
  induction A with
  | nil =>
    intro l2 h
    cases l2 with
    | nil => simp at h
    | cons x xs =>
      simp only [List.map_cons, List.nil_append] at h
      injection h with h1 h2
      exact ⟨[], x, xs, by simp, by simp, h1, h2⟩
  | cons a as ih =>
    intro l2 h
    cases l2 with
    | nil => simp at h
    | cons x xs =>
      simp only [List.map_cons, List.cons_append] at h
      injection h with h1 h2
      obtain ⟨pre2, x2, suf2, hsp, hpre, hx, hsuf⟩ := ih xs h2
      exact ⟨x :: pre2, x2, suf2, by rw [hsp]; rfl, by simp [h1, hpre], hx, hsuf⟩

/-- `maintAvail` never lowers a recorded availability. -/
theorem maintAvail_ge (ctx : CalendarCtx) (st : SchedState) (o : WorkOrder)
    (w : String) (v : Int) (hv : mapGet st.workCenterAvailability w = some v) :
    ∃ v2, mapGet (maintAvail ctx st o) w = some v2 ∧ v ≤ v2 := by
  unfold maintAvail
  cases hcur : mapGet st.workCenterAvailability o.data.workCenterId with
  | none =>
    simp only [hcur]
    by_cases hwc : w = o.data.workCenterId
    · rw [hwc, hcur] at hv
      exact Option.noConfusion hv
    · rw [mapGet_mapSet_ne _ _ _ _ hwc]
      exact ⟨v, hv, le_refl v⟩
  | some current =>
    simp only [hcur]
    by_cases hlt : current < ctx.fromISO o.data.endDate
    · rw [if_pos hlt]
      by_cases hwc : w = o.data.workCenterId
      · subst hwc
        rw [hcur] at hv
        have hvc : current = v := Option.some.inj hv
        refine ⟨ctx.fromISO o.data.endDate, mapGet_mapSet_self _ _ _, ?_⟩
        omega
      · rw [mapGet_mapSet_ne _ _ _ _ hwc]
        exact ⟨v, hv, le_refl v⟩
    · rw [if_neg hlt]
      exact ⟨v, hv, le_refl v⟩

/-- Scheduling one order whose dependencies are all processed, with a fresh
id, preserves the scheduling invariant. -/
theorem scheduleWorkOrder_inv_step (ctx : CalendarCtx)
    (wcIndex : List (String × WorkCenter)) (aes : Bool) (now : Int)
    (hctx1 : ∀ t wc, t ≤ ctx.findEarliestValidStart t wc)
    (hctx2 : ∀ s d wc, s ≤ ctx.calculateEndDateWithShifts s d wc)
    (st : SchedState) (processed : List WorkOrder) (o : WorkOrder)
    (hinv : SchedInv st processed)
    (hpnodup : (processed.map (·.docId)).Nodup)
    (hfresh : o.docId ∉ processed.map (·.docId))
    (hclo : ∀ d ∈ o.data.dependsOnWorkOrderIds, d ∈ processed.map (·.docId)) :
    SchedInv (scheduleWorkOrder ctx wcIndex aes now st o) (processed ++ [o]) := by
  unfold SchedInv at hinv
  obtain ⟨hA, hB, hC, hF, hE⟩ := hinv
  have hpdocid : ∀ o1 ∈ processed, o1.docId ≠ o.docId := by
    intro o1 h1 heq
    exact hfresh (heq ▸ List.mem_map_of_mem (·.docId) h1)
  have hidne : ∀ d, d ∈ processed.map (·.docId) → d ≠ o.docId := by
    intro d hd heq
    exact hfresh (heq ▸ hd)
  have hCES : ∀ v, mapGet st.workCenterAvailability o.data.workCenterId = some v →
      v ≤ calculateEarliestStart ctx aes now o
        st.workCenterAvailability st.workOrderEndTimes := by
    intro v hv
    apply calculateEarliestStart_ge
    simp [hv]
  have hDepE : ∀ d e, d ∈ o.data.dependsOnWorkOrderIds →
      mapGet st.workOrderEndTimes d = some e →
      e ≤ calculateEarliestStart ctx aes now o
        st.workCenterAvailability st.workOrderEndTimes := by
    intro d e hd he
    apply calculateEarliestStart_ge
    apply List.mem_append_right
    exact List.mem_filterMap.mpr ⟨d, hd, he⟩
  have hVS : calculateEarliestStart ctx aes now o
      st.workCenterAvailability st.workOrderEndTimes ≤
      schedValidStart ctx wcIndex aes now st o := hctx1 _ _
  have hVE : schedValidStart ctx wcIndex aes now st o ≤
      schedNewEnd ctx wcIndex aes now st o := hctx2 _ _ _
  have hEold : ∀ pre2 r1 mid2 r2 suf2, st.results = pre2 ++ r1 :: mid2 ++ r2 :: suf2 →
      ∀ o1 ∈ processed ++ [o], ∀ o2 ∈ processed ++ [o],
      r1.workOrderId = o1.docId → r2.workOrderId = o2.docId →
      o1.data.isMaintenance = false → o2.data.isMaintenance = false →
      o1.data.workCenterId = o2.data.workCenterId →
      r1.newEndDate ≤ r2.newStartDate := by
    intro pre2 r1 mid2 r2 suf2 hres o1 ho1 o2 ho2 hid1 hid2 hm1 hm2 hwc
    have hr1mem : r1 ∈ st.results := by
      rw [hres]
      exact List.mem_append_left _ (List.mem_append_right _ (List.mem_cons_self r1 mid2))
    have hr2mem : r2 ∈ st.results := by
      rw [hres]
      exact List.mem_append_right _ (List.mem_cons_self r2 suf2)
    have homem : ∀ o3 ∈ processed ++ [o], ∀ r3, r3 ∈ st.results →
        r3.workOrderId = o3.docId → o3 ∈ processed := by
      intro o3 ho3 r3 hr3 hid3
      rcases List.mem_append.mp ho3 with h3 | h3
      · exact h3
      · rw [List.mem_singleton] at h3
        subst h3
        have : r3.workOrderId ∈ st.results.map (·.workOrderId) :=
          List.mem_map_of_mem (·.workOrderId) hr3
        rw [hA, hid3] at this
        exact absurd this hfresh
    have hr1memb : r1 ∈ pre2 ++ r1 :: mid2 := List.mem_append_right _ (List.mem_cons_self r1 mid2)
    exact hE pre2 r1 mid2 r2 suf2 hres o1 (homem o1 ho1 r1 hr1mem hid1)
      o2 (homem o2 ho2 r2 hr2mem hid2) hid1 hid2 hm1 hm2 hwc
  by_cases hm : o.data.isMaintenance = true
  · rw [scheduleWorkOrder_maint_eq ctx wcIndex aes now st o hm]
    unfold SchedInv SchedPair
    refine ⟨?_, ?_, ?_, ?_, ?_⟩
    · simp [hA, maintResult]
    · intro r hr
      simp only [] at hr
      rcases List.mem_append.mp hr with hr | hr
      · obtain ⟨o2, ho2, hpair⟩ := hB r hr
        unfold SchedPair at hpair
        obtain ⟨hid, hfix, hET, hrest⟩ := hpair
        refine ⟨o2, List.mem_append_left _ ho2, hid, hfix, ?_, ?_⟩
        · show mapGet (mapSet st.workOrderEndTimes o.docId (ctx.fromISO o.data.endDate))
            o2.docId = some r.newEndDate
          rw [mapGet_mapSet_ne _ _ _ _ (hpdocid o2 ho2)]
          exact hET
        · intro hom
          obtain ⟨⟨v, hv, hvle⟩, hdeps⟩ := hrest hom
          constructor
          · obtain ⟨v2, hv2, hle2⟩ := maintAvail_ge ctx st o _ v hv
            exact ⟨v2, hv2, le_trans hvle hle2⟩
          · intro d hd e he
            rw [mapGet_mapSet_ne _ _ _ _ (hidne d (hF o2 ho2 d hd))] at he
            exact hdeps d hd e he
      · rw [List.mem_singleton] at hr
        subst hr
        refine ⟨o, List.mem_append_right _ (List.mem_singleton_self o), rfl, ?_, ?_, ?_⟩
        · show (true : Bool) = o.data.isMaintenance
          exact hm.symm
        · show mapGet (mapSet st.workOrderEndTimes o.docId (ctx.fromISO o.data.endDate))
            o.docId = some (maintResult ctx o).newEndDate
          rw [mapGet_mapSet_self]
          rfl
        · intro hom
          rw [hm] at hom
          exact Bool.noConfusion hom
    · intro k hk
      simp only [] at hk
      by_cases hko : k = o.docId
      · subst hko
        rw [List.map_append]
        apply List.mem_append_right
        simp
      · rw [mapGet_mapSet_ne _ _ _ _ hko] at hk
        rw [List.map_append]
        exact List.mem_append_left _ (hC k hk)
    · intro o2 ho2 d hd
      rw [List.map_append]
      apply List.mem_append_left
      rcases List.mem_append.mp ho2 with h2 | h2
      · exact hF o2 h2 d hd
      · rw [List.mem_singleton] at h2
        subst h2
        exact hclo d hd
    · intro pre r1 mid r2 suf hsplit o1 ho1 o2 ho2 hid1 hid2 hm1 hm2 hwc
      have hsplit0 : st.results ++ [maintResult ctx o] =
          (pre ++ r1 :: mid) ++ r2 :: suf := hsplit
      rcases append_singleton_split st.results (maintResult ctx o)
          (pre ++ r1 :: mid) r2 suf hsplit0 with ⟨suf2, hres, _⟩ | ⟨hpre2, hr2, _⟩
      · exact hEold pre r1 mid r2 suf2 hres o1 ho1 o2 ho2 hid1 hid2 hm1 hm2 hwc
      · subst hr2
        have ho2o : o2 = o := by
          rcases List.mem_append.mp ho2 with h2 | h2
          · exact absurd hid2.symm (hpdocid o2 h2)
          · rw [List.mem_singleton] at h2
            exact h2
        subst ho2o
        rw [hm] at hm2
        exact Bool.noConfusion hm2
  · have hmf : o.data.isMaintenance = false := by
      cases hmm : o.data.isMaintenance with
      | false => rfl
      | true => exact absurd hmm hm
    rw [scheduleWorkOrder_normal_eq ctx wcIndex aes now st o hmf]
    unfold SchedInv SchedPair
    refine ⟨?_, ?_, ?_, ?_, ?_⟩
    · simp [hA, normalResult]
    · intro r hr
      simp only [] at hr
      rcases List.mem_append.mp hr with hr | hr
      · obtain ⟨o2, ho2, hpair⟩ := hB r hr
        unfold SchedPair at hpair
        obtain ⟨hid, hfix, hET, hrest⟩ := hpair
        refine ⟨o2, List.mem_append_left _ ho2, hid, hfix, ?_, ?_⟩
        · show mapGet (mapSet st.workOrderEndTimes o.docId
            (schedNewEnd ctx wcIndex aes now st o)) o2.docId = some r.newEndDate
          rw [mapGet_mapSet_ne _ _ _ _ (hpdocid o2 ho2)]
          exact hET
        · intro hom
          obtain ⟨⟨v, hv, hvle⟩, hdeps⟩ := hrest hom
          constructor
          · by_cases hwc : o2.data.workCenterId = o.data.workCenterId
            · refine ⟨schedNewEnd ctx wcIndex aes now st o, ?_, ?_⟩
              · show mapGet (mapSet st.workCenterAvailability o.data.workCenterId
                  (schedNewEnd ctx wcIndex aes now st o)) o2.data.workCenterId =
                  some (schedNewEnd ctx wcIndex aes now st o)
                rw [hwc]
                exact mapGet_mapSet_self _ _ _
              · rw [hwc] at hv
                exact le_trans hvle (le_trans (hCES v hv) (le_trans hVS hVE))
            · refine ⟨v, ?_, hvle⟩
              show mapGet (mapSet st.workCenterAvailability o.data.workCenterId
                (schedNewEnd ctx wcIndex aes now st o)) o2.data.workCenterId = some v
              rw [mapGet_mapSet_ne _ _ _ _ hwc]
              exact hv
          · intro d hd e he
            rw [mapGet_mapSet_ne _ _ _ _ (hidne d (hF o2 ho2 d hd))] at he
            exact hdeps d hd e he
      · rw [List.mem_singleton] at hr
        subst hr
        refine ⟨o, List.mem_append_right _ (List.mem_singleton_self o), rfl, ?_, ?_, ?_⟩
        · show (false : Bool) = o.data.isMaintenance
          exact hmf.symm
        · show mapGet (mapSet st.workOrderEndTimes o.docId
            (schedNewEnd ctx wcIndex aes now st o)) o.docId =
            some (normalResult ctx wcIndex aes now st o).newEndDate
          rw [mapGet_mapSet_self]
          rfl
        · intro _
          constructor
          · refine ⟨schedNewEnd ctx wcIndex aes now st o, ?_, ?_⟩
            · show mapGet (mapSet st.workCenterAvailability o.data.workCenterId
                (schedNewEnd ctx wcIndex aes now st o)) o.data.workCenterId =
                some (schedNewEnd ctx wcIndex aes now st o)
              exact mapGet_mapSet_self _ _ _
            · show (normalResult ctx wcIndex aes now st o).newEndDate ≤
                schedNewEnd ctx wcIndex aes now st o
              exact le_refl _
          · intro d hd e he
            show e ≤ (normalResult ctx wcIndex aes now st o).newStartDate
            have hdne : d ≠ o.docId := hidne d (hclo d hd)
            rw [mapGet_mapSet_ne _ _ _ _ hdne] at he
            exact le_trans (hDepE d e hd he) hVS
    · intro k hk
      simp only [] at hk
      by_cases hko : k = o.docId
      · subst hko
        rw [List.map_append]
        apply List.mem_append_right
        simp
      · rw [mapGet_mapSet_ne _ _ _ _ hko] at hk
        rw [List.map_append]
        exact List.mem_append_left _ (hC k hk)
    · intro o2 ho2 d hd
      rw [List.map_append]
      apply List.mem_append_left
      rcases List.mem_append.mp ho2 with h2 | h2
      · exact hF o2 h2 d hd
      · rw [List.mem_singleton] at h2
        subst h2
        exact hclo d hd
    · intro pre r1 mid r2 suf hsplit o1 ho1 o2 ho2 hid1 hid2 hm1 hm2 hwc
      have hsplit0 : st.results ++ [normalResult ctx wcIndex aes now st o] =
          (pre ++ r1 :: mid) ++ r2 :: suf := hsplit
      rcases append_singleton_split st.results (normalResult ctx wcIndex aes now st o)
          (pre ++ r1 :: mid) r2 suf hsplit0 with ⟨suf2, hres, _⟩ | ⟨hpre2, hr2, _⟩
      · exact hEold pre r1 mid r2 suf2 hres o1 ho1 o2 ho2 hid1 hid2 hm1 hm2 hwc
      · subst hr2
        have hr1mem : r1 ∈ st.results := by
          rw [← hpre2]
          exact List.mem_append_right _ (List.mem_cons_self r1 mid)
        have ho1p : o1 ∈ processed := by
          rcases List.mem_append.mp ho1 with h1 | h1
          · exact h1
          · rw [List.mem_singleton] at h1
            subst h1
            have hmm : r1.workOrderId ∈ st.results.map (·.workOrderId) :=
              List.mem_map_of_mem (·.workOrderId) hr1mem
            rw [hA, hid1] at hmm
            exact absurd hmm hfresh
        obtain ⟨o1b, ho1b, hpair⟩ := hB r1 hr1mem
        unfold SchedPair at hpair
        obtain ⟨hid1b, _, _, hrest1⟩ := hpair
        have ho1eq : o1b = o1 := by
          apply nodup_map_mem_inj (·.docId) processed hpnodup o1b o1 ho1b ho1p
          rw [← hid1b, hid1]
        subst ho1eq
        obtain ⟨⟨v, hv, hvle⟩, _⟩ := hrest1 hm1
        show r1.newEndDate ≤ (normalResult ctx wcIndex aes now st o).newStartDate
        have ho2o : o2 = o := by
          rcases List.mem_append.mp ho2 with h2 | h2
          · exact absurd hid2.symm (hpdocid o2 h2)
          · rw [List.mem_singleton] at h2
            exact h2
        subst ho2o
        rw [hwc] at hv
        exact le_trans hvle (le_trans (hCES v hv) hVS)

/-- The empty initial state satisfies the scheduling invariant. -/
theorem schedInv_empty : SchedInv emptySchedState [] := by
  unfold SchedInv emptySchedState
  refine ⟨rfl, ?_, ?_, ?_, ?_⟩
  · intro r hr
    exact absurd hr (List.not_mem_nil r)
  · intro k hk
    simp [mapGet] at hk
  · intro o ho
    exact absurd ho (List.not_mem_nil o)
  · intro pre r1 mid r2 suf hsplit
    exact absurd hsplit.symm (by simp)

/-- The scheduling fold over a prefix-closed, duplicate-free order list keeps
the invariant all the way to the end. -/
theorem schedule_foldl_inv (ctx : CalendarCtx) (wcIndex : List (String × WorkCenter))
    (aes : Bool) (now : Int)
    (hctx1 : ∀ t wc, t ≤ ctx.findEarliestValidStart t wc)
    (hctx2 : ∀ s d wc, s ≤ ctx.calculateEndDateWithShifts s d wc)
    (sorted : List WorkOrder)
    (hnd : (sorted.map (·.docId)).Nodup)
    (hclosure : ∀ pre x suf, sorted = pre ++ x :: suf →
      ∀ d ∈ x.data.dependsOnWorkOrderIds, d ∈ pre.map (·.docId)) :
    ∀ (todo processed : List WorkOrder) (st : SchedState),
      sorted = processed ++ todo → SchedInv st processed →
      SchedInv (todo.foldl (scheduleWorkOrder ctx wcIndex aes now) st) sorted := by
  intro todo
  induction todo with
  | nil =>
    intro processed st hsp hinv
    rw [List.foldl_nil]
    rw [hsp, List.append_nil]
    exact hinv
  | cons o todo ih =>
    intro processed st hsp hinv
    rw [List.foldl_cons]
    have hndp : ((processed ++ [o]).map (·.docId)).Nodup := by
      have hsp2 : sorted = (processed ++ [o]) ++ todo := by
        rw [hsp]
        simp
      have hsub : ((processed ++ [o]).map (·.docId)).Sublist (sorted.map (·.docId)) := by
        rw [hsp2]
        exact List.Sublist.map _ (List.sublist_append_left _ _)
      exact List.Nodup.sublist hsub hnd
    have hndp2 := hndp
    rw [List.map_append] at hndp2
    obtain ⟨hpnodup, _, hdisj⟩ := List.nodup_append.mp hndp2
    have hfresh : o.docId ∉ processed.map (·.docId) := by
      intro hmem
      exact hdisj hmem (by simp)
    have hclo : ∀ d ∈ o.data.dependsOnWorkOrderIds, d ∈ processed.map (·.docId) :=
      hclosure processed o todo hsp
    exact ih (processed ++ [o]) _ (by rw [hsp]; simp)
      (scheduleWorkOrder_inv_step ctx wcIndex aes now hctx1 hctx2 st processed o hinv
        hpnodup hfresh hclo)

/-- A successful `reflow`, decomposed: validated work centers, a built graph,
a successful sort, and the output assembled from the scheduling fold. -/
theorem reflow_ok_destruct (ctx : CalendarCtx) (wcIndex : List (String × WorkCenter))
    (aes : Bool) (now procMs : Int) (workOrders : List WorkOrder) (out : ReflowOutput)
    (hok : reflow ctx wcIndex aes now procMs workOrders = Except.ok out) :
    ∃ g sortedOrders, buildDependencyGraph workOrders = Except.ok g ∧
      topologicalSort g = Except.ok sortedOrders ∧
      out.results = (sortedOrders.foldl (scheduleWorkOrder ctx wcIndex aes now)
        emptySchedState).results ∧
      out.warnings = (sortedOrders.foldl (scheduleWorkOrder ctx wcIndex aes now)
        emptySchedState).warnings ∧
      out.metadata =
        { totalOrders := workOrders.length
          rescheduledCount := (((sortedOrders.foldl (scheduleWorkOrder ctx wcIndex aes now)
            emptySchedState).results.filter (·.wasRescheduled)).length)
          fixedCount := (((sortedOrders.foldl (scheduleWorkOrder ctx wcIndex aes now)
            emptySchedState).results.filter (·.isFixed)).length)
          processingTimeMs := procMs } := by
  unfold reflow at hok
  cases hval : validateWorkCenters wcIndex workOrders with
  | some p =>
    obtain ⟨a, b⟩ := p
    rw [hval] at hok
    exact Except.noConfusion hok
  | none =>
    rw [hval] at hok
    cases hg : buildDependencyGraph workOrders with
    | error e =>
      rw [hg] at hok
      simp only [Except.bind] at hok
      exact Except.noConfusion hok
    | ok g =>
      rw [hg] at hok
      simp only [Except.bind] at hok
      cases hs : topologicalSort g with
      | error e =>
        rw [hs] at hok
        simp only [Except.bind] at hok
        exact Except.noConfusion hok
      | ok sortedOrders =>
        rw [hs] at hok
        simp only [Except.bind] at hok
        injection hok with hok2
        refine ⟨g, sortedOrders, rfl, hs, ?_, ?_, ?_⟩
        · rw [← hok2]
          rfl
        · rw [← hok2]
          rfl
        · rw [← hok2]
          rfl

/-- Two members of a list with distinct images split it positionally, in one
order or the other. -/
theorem mem_mem_split {α β : Type} (f : α → β) (l : List α) (a b : α)
    (ha : a ∈ l) (hb : b ∈ l) (hne : f a ≠ f b) :
    (∃ pre mid suf, l = pre ++ a :: mid ++ b :: suf) ∨
    (∃ pre mid suf, l = pre ++ b :: mid ++ a :: suf) := by
  have hab : a ≠ b := fun hh => hne (hh ▸ rfl)
  induction l with
  | nil => exact absurd ha (List.not_mem_nil a)
  | cons x xs ih =>
    rcases List.mem_cons.mp ha with rfl | ha2
    · have hbxs : b ∈ xs := by
        rcases List.mem_cons.mp hb with h2 | h2
        · exact absurd h2.symm hab
        · exact h2
      obtain ⟨pre, suf, hsp⟩ := List.append_of_mem hbxs
      left
      exact ⟨[], pre, suf, by rw [hsp]; rfl⟩
    · rcases List.mem_cons.mp hb with rfl | hb2
      · obtain ⟨pre, suf, hsp⟩ := List.append_of_mem ha2
        right
        exact ⟨[], pre, suf, by rw [hsp]; rfl⟩
      · rcases ih ha2 hb2 with ⟨pre, mid, suf, hsp⟩ | ⟨pre, mid, suf, hsp⟩
        · left
          exact ⟨x :: pre, mid, suf, by rw [hsp]; rfl⟩
        · right
          exact ⟨x :: pre, mid, suf, by rw [hsp]; rfl⟩

/-- The scheduling fold appends exactly one result per order, in order. -/
theorem schedule_foldl_ids (ctx : CalendarCtx) (wcIndex : List (String × WorkCenter))
    (aes : Bool) (now : Int) :
    ∀ (todo : List WorkOrder) (st : SchedState),
      ((todo.foldl (scheduleWorkOrder ctx wcIndex aes now) st).results).map (·.workOrderId) =
        st.results.map (·.workOrderId) ++ todo.map (·.docId) := by
  intro todo
  induction todo with
  | nil =>
    intro st
    simp
  | cons o todo ih =>
    intro st
    rw [List.foldl_cons, ih]
    by_cases hm : o.data.isMaintenance = true
    · rw [scheduleWorkOrder_maint_eq ctx wcIndex aes now st o hm]
      simp [maintResult]
    · have hmf : o.data.isMaintenance = false := by
        cases hmm : o.data.isMaintenance with
        | false => rfl
        | true => exact absurd hmm hm
      rw [scheduleWorkOrder_normal_eq ctx wcIndex aes now st o hmf]
      simp [normalResult]

/-- A successful `reflow` under monotone calendar hypotheses: the graph, the
sort, its specification, and the scheduling invariant at the final state. -/
theorem reflow_sched_glue (ctx : CalendarCtx) (wcIndex : List (String × WorkCenter))
    (aes : Bool) (now procMs : Int) (workOrders : List WorkOrder) (out : ReflowOutput)
    (hctx1 : ∀ t wc, t ≤ ctx.findEarliestValidStart t wc)
    (hctx2 : ∀ s d wc, s ≤ ctx.calculateEndDateWithShifts s d wc)
    (hok : reflow ctx wcIndex aes now procMs workOrders = Except.ok out) :
    ∃ g sortedOrders st, buildDependencyGraph workOrders = Except.ok g ∧
      topologicalSort g = Except.ok sortedOrders ∧
      WFNodes g.nodes ∧ KahnPost g.nodes sortedOrders ∧
      (∀ k nd, mapGet g.nodes k = some nd → nd.workOrder ∈ sortedOrders) ∧
      SchedInv st sortedOrders ∧ out.results = st.results := by
  obtain ⟨g, sortedOrders, hg, hs, hres, _, _⟩ :=
    reflow_ok_destruct ctx wcIndex aes now procMs workOrders out hok
  have hWF : WFNodes g.nodes := buildDependencyGraph_ok_wf workOrders g hg
  obtain ⟨hpost, hcompl⟩ := topologicalSort_ok_spec g hWF sortedOrders hs
  obtain ⟨hndids, hI2, hI6⟩ := hpost
  have hclosure : ∀ pre x suf, sortedOrders = pre ++ x :: suf →
      ∀ d ∈ x.data.dependsOnWorkOrderIds, d ∈ pre.map (·.docId) := by
    intro pre x suf hsp d hd
    have hxmem : x ∈ sortedOrders := by
      rw [hsp]
      exact List.mem_append_right _ (List.mem_cons_self x suf)
    obtain ⟨nd, hget, hwo⟩ := hI2 x hxmem
    obtain ⟨hWFa, hWFn⟩ := hWF
    obtain ⟨_, hdeps, _, _, _, _, _⟩ := hWFn _ nd hget
    have hdd : d ∈ nd.dependencies := by
      rw [hdeps, hwo]
      exact (mem_dedup _ _).mpr hd
    exact hI6 pre x suf hsp nd hget d hdd
  have hfold := schedule_foldl_inv ctx wcIndex aes now hctx1 hctx2 sortedOrders hndids
    hclosure sortedOrders [] emptySchedState (by simp) schedInv_empty
  exact ⟨g, sortedOrders, _, hg, hs, hWF, ⟨hndids, hI2, hI6⟩, hcompl, hfold, hres⟩

/-- C1 (amended): for every input on which `reflow` succeeds — with the
date-utils layer modelled as a `CalendarCtx` whose `findEarliestValidStart`
and `calculateEndDateWithShifts` never return an instant before their
argument — every NON-maintenance result starts no earlier than the scheduled
end of each of its order's declared dependencies.  (The claim's inclusion of
maintenance orders is refuted by `reflow_maintenance_ignores_dependency_end`:
maintenance orders are returned fixed at their original dates, ignoring
dependency ends.) -/
theorem reflow_nonmaintenance_respects_dependency_ends (ctx : CalendarCtx)
    (wcIndex : List (String × WorkCenter)) (aes : Bool) (now procMs : Int)
    (workOrders : List WorkOrder) (out : ReflowOutput) (g : DependencyGraph)
    (hctx1 : ∀ t wc, t ≤ ctx.findEarliestValidStart t wc)
    (hctx2 : ∀ s d wc, s ≤ ctx.calculateEndDateWithShifts s d wc)
    (hok : reflow ctx wcIndex aes now procMs workOrders = Except.ok out)
    (hg : buildDependencyGraph workOrders = Except.ok g) :
    ∀ r ∈ out.results, r.isFixed = false →
      ∀ nd, mapGet g.nodes r.workOrderId = some nd →
        ∀ d ∈ nd.workOrder.data.dependsOnWorkOrderIds,
          ∀ r2 ∈ out.results, r2.workOrderId = d →
            r2.newEndDate ≤ r.newStartDate := by
  obtain ⟨g2, sortedOrders, st, hg2, hs, hWF, hpost, hcompl, hinv, hres⟩ :=
    reflow_sched_glue ctx wcIndex aes now procMs workOrders out hctx1 hctx2 hok
  rw [hg] at hg2
  injection hg2 with hgeq
  subst hgeq
  intro r hrmem hrfix nd hnd d hd r2 hr2mem hr2id
  unfold SchedInv at hinv
  obtain ⟨hA, hB, hC, hF, hE⟩ := hinv
  rw [hres] at hrmem hr2mem
  obtain ⟨o1, ho1, hpair1⟩ := hB r hrmem
  obtain ⟨o2, ho2, hpair2⟩ := hB r2 hr2mem
  unfold SchedPair at hpair1 hpair2
  obtain ⟨hid1, hfix1, hET1, hrest1⟩ := hpair1
  obtain ⟨hid2, hfix2, hET2, hrest2⟩ := hpair2
  have hndmem : nd.workOrder ∈ sortedOrders := hcompl _ nd hnd
  obtain ⟨hWFa, hWFn⟩ := hWF
  have hnddoc : nd.workOrder.docId = r.workOrderId := (hWFn _ nd hnd).1
  have hndids : (sortedOrders.map (·.docId)).Nodup := hpost.1
  have ho1eq : o1 = nd.workOrder := by
    apply nodup_map_mem_inj (·.docId) sortedOrders hndids o1 nd.workOrder ho1 hndmem
    rw [hnddoc, ← hid1]
  have hm1 : o1.data.isMaintenance = false := by
    rw [← hfix1]
    exact hrfix
  obtain ⟨_, hdepbound⟩ := hrest1 hm1
  have hETd : mapGet st.workOrderEndTimes d = some r2.newEndDate := by
    rw [← hr2id, hid2]
    exact hET2
  exact hdepbound d (by rw [ho1eq]; exact hd) r2.newEndDate hETd

/-- C2: for every input on which `reflow` succeeds — with the date-utils layer
modelled as a `CalendarCtx` whose `findEarliestValidStart` and
`calculateEndDateWithShifts` never return an instant before their argument,
as the claim itself hypothesises — any two distinct non-maintenance results
on the same work center occupy disjoint intervals. -/
theorem reflow_same_work_center_results_disjoint (ctx : CalendarCtx)
    (wcIndex : List (String × WorkCenter)) (aes : Bool) (now procMs : Int)
    (workOrders : List WorkOrder) (out : ReflowOutput) (g : DependencyGraph)
    (hctx1 : ∀ t wc, t ≤ ctx.findEarliestValidStart t wc)
    (hctx2 : ∀ s d wc, s ≤ ctx.calculateEndDateWithShifts s d wc)
    (hok : reflow ctx wcIndex aes now procMs workOrders = Except.ok out)
    (hg : buildDependencyGraph workOrders = Except.ok g) :
    ∀ r1 ∈ out.results, ∀ r2 ∈ out.results,
      r1.isFixed = false → r2.isFixed = false →
      r1.workOrderId ≠ r2.workOrderId →
      ∀ nd1 nd2, mapGet g.nodes r1.workOrderId = some nd1 →
        mapGet g.nodes r2.workOrderId = some nd2 →
        nd1.workOrder.data.workCenterId = nd2.workOrder.data.workCenterId →
        r1.newEndDate ≤ r2.newStartDate ∨ r2.newEndDate ≤ r1.newStartDate := by
  obtain ⟨g2, sortedOrders, st, hg2, hs, hWF, hpost, hcompl, hinv, hres⟩ :=
    reflow_sched_glue ctx wcIndex aes now procMs workOrders out hctx1 hctx2 hok
  rw [hg] at hg2
  injection hg2 with hgeq
  subst hgeq
  intro r1 hr1 r2 hr2 hf1 hf2 hneid nd1 nd2 hnd1 hnd2 hwc
  unfold SchedInv at hinv
  obtain ⟨hA, hB, hC, hF, hE⟩ := hinv
  rw [hres] at hr1 hr2
  obtain ⟨o1, ho1, hpair1⟩ := hB r1 hr1
  obtain ⟨o2, ho2, hpair2⟩ := hB r2 hr2
  unfold SchedPair at hpair1 hpair2
  obtain ⟨hid1, hfix1, hET1, hrest1⟩ := hpair1
  obtain ⟨hid2, hfix2, hET2, hrest2⟩ := hpair2
  obtain ⟨hWFa, hWFn⟩ := hWF
  have hndids : (sortedOrders.map (·.docId)).Nodup := hpost.1
  have ho1eq : o1 = nd1.workOrder := by
    apply nodup_map_mem_inj (·.docId) sortedOrders hndids o1 nd1.workOrder ho1
      (hcompl _ nd1 hnd1)
    rw [(hWFn _ nd1 hnd1).1, ← hid1]
  have ho2eq : o2 = nd2.workOrder := by
    apply nodup_map_mem_inj (·.docId) sortedOrders hndids o2 nd2.workOrder ho2
      (hcompl _ nd2 hnd2)
    rw [(hWFn _ nd2 hnd2).1, ← hid2]
  have hm1 : o1.data.isMaintenance = false := by
    rw [← hfix1]
    exact hf1
  have hm2 : o2.data.isMaintenance = false := by
    rw [← hfix2]
    exact hf2
  have hwc2 : o1.data.workCenterId = o2.data.workCenterId := by
    rw [ho1eq, ho2eq]
    exact hwc
  rcases mem_mem_split (fun r : ReflowResult => r.workOrderId) st.results r1 r2 hr1 hr2
      hneid with ⟨pre, mid, suf, hsp⟩ | ⟨pre, mid, suf, hsp⟩
  · left
    exact hE pre r1 mid r2 suf hsp o1 ho1 o2 ho2 hid1 hid2 hm1 hm2 hwc2
  · right
    exact hE pre r2 mid r1 suf hsp o2 ho2 o1 ho1 hid2 hid1 hm2 hm1 hwc2.symm

/-- C8: for every input on which `reflow` succeeds, `metadata.totalOrders` is
the number of input orders, `rescheduledCount` and `fixedCount` count the
results flagged `wasRescheduled` and `isFixed`, and the results list follows
the processing (topological) order: for every dependency edge from D to an
order X, the result of D appears strictly before the result of X. -/
theorem reflow_results_follow_topological_order_and_metadata (ctx : CalendarCtx)
    (wcIndex : List (String × WorkCenter)) (aes : Bool) (now procMs : Int)
    (workOrders : List WorkOrder) (out : ReflowOutput) (g : DependencyGraph)
    (hok : reflow ctx wcIndex aes now procMs workOrders = Except.ok out)
    (hg : buildDependencyGraph workOrders = Except.ok g) :
    out.metadata.totalOrders = workOrders.length ∧
    out.metadata.rescheduledCount = (out.results.filter (·.wasRescheduled)).length ∧
    out.metadata.fixedCount = (out.results.filter (·.isFixed)).length ∧
    ∀ pre x suf, out.results = pre ++ x :: suf →
      ∀ nd, mapGet g.nodes x.workOrderId = some nd →
        ∀ d ∈ nd.workOrder.data.dependsOnWorkOrderIds,
          ∀ r2 ∈ out.results, r2.workOrderId = d → r2 ∈ pre := by
  obtain ⟨g2, sortedOrders, hg2, hs, hres, hwarn, hmeta⟩ :=
    reflow_ok_destruct ctx wcIndex aes now procMs workOrders out hok
  rw [hg] at hg2
  injection hg2 with hgeq
  subst hgeq
  have hWF : WFNodes g.nodes := buildDependencyGraph_ok_wf workOrders g hg
  obtain ⟨hpost, hcompl⟩ := topologicalSort_ok_spec g hWF sortedOrders hs
  obtain ⟨hndids, hI2, hI6⟩ := hpost
  have halign : out.results.map (·.workOrderId) = sortedOrders.map (·.docId) := by
    rw [hres, schedule_foldl_ids ctx wcIndex aes now sortedOrders emptySchedState]
    rfl
  refine ⟨?_, ?_, ?_, ?_⟩
  · rw [hmeta]
  · rw [hmeta, hres]
  · rw [hmeta, hres]
  · intro pre x suf hsp nd hnd d hd r2 hr2 hr2id
    have hmapeq : sortedOrders.map (·.docId) =
        pre.map (·.workOrderId) ++ x.workOrderId :: suf.map (·.workOrderId) := by
      rw [← halign, hsp]
      simp
    obtain ⟨preS, y, sufS, hspS, hpreS, hyid, hsufS⟩ :=
      map_split (·.docId) (pre.map (·.workOrderId)) x.workOrderId
        (suf.map (·.workOrderId)) sortedOrders hmapeq
    obtain ⟨hWFa, hWFn⟩ := hWF
    obtain ⟨_, hdeps, _, _, _, _, _⟩ := hWFn _ nd hnd
    have hdd : d ∈ nd.dependencies := by
      rw [hdeps]
      exact (mem_dedup _ _).mpr hd
    have hdpre : d ∈ preS.map (·.docId) :=
      hI6 preS y sufS hspS nd (by rw [hyid]; exact hnd) d hdd
    rw [hpreS] at hdpre
    have hnodup : (out.results.map (·.workOrderId)).Nodup := by
      rw [halign]
      exact hndids
    rw [hsp, List.map_append] at hnodup
    obtain ⟨-, -, hdisj⟩ := List.nodup_append.mp hnodup
    rw [hsp] at hr2
    rcases List.mem_append.mp hr2 with h2 | h2
    · exact h2
    · exfalso
      have hd2 : d ∈ (x :: suf).map (·.workOrderId) := by
        rw [← hr2id]
        exact List.mem_map_of_mem _ h2
      exact hdisj hdpre hd2

/-- C1 amended witness: on `wOrders` (order `b` depends on `a`, both
non-maintenance on `wc-1`) under the open calendar, `b`'s result starts no
earlier than `a`'s result ends. -/
theorem reflow_nonmaintenance_respects_dependency_ends_witness :
    wResB ∈ wOut.results ∧ wResB.isFixed = false ∧
    "a" ∈ wNodeB.workOrder.data.dependsOnWorkOrderIds ∧
    wResA.workOrderId = "a" ∧ wResA.newEndDate ≤ wResB.newStartDate := by
  refine ⟨by decide, by decide, by decide, by decide, ?_⟩
  exact reflow_nonmaintenance_respects_dependency_ends openCtx wcIndex1 false 0 0 wOrders
    wOut wGraph (fun t wc => le_refl t)
    (fun s d wc => by show s ≤ s + 60000 * (d : Int); omega)
    (by decide) (by decide) wResB (by decide) (by decide) wNodeB (by decide)
    "a" (by decide) wResA (by decide) (by decide)

/-- C2 witness: the two distinct non-maintenance results of `wOrders` on
`wc-1` occupy disjoint intervals. -/
theorem reflow_same_work_center_results_disjoint_witness :
    wResA.workOrderId ≠ wResB.workOrderId ∧
    (wResA.newEndDate ≤ wResB.newStartDate ∨ wResB.newEndDate ≤ wResA.newStartDate) := by
  refine ⟨by decide, ?_⟩
  exact reflow_same_work_center_results_disjoint openCtx wcIndex1 false 0 0 wOrders wOut
    wGraph (fun t wc => le_refl t)
    (fun s d wc => by show s ≤ s + 60000 * (d : Int); omega)
    (by decide) (by decide) wResA (by decide) wResB (by decide) (by decide) (by decide)
    (by decide) wNodeA wNodeB (by decide) (by decide) (by decide)

/-- C8 witness: on `wOrders`, the metadata counts check out and dependency
`a` of order `b` has its result before `b`'s. -/
theorem reflow_results_follow_topological_order_and_metadata_witness :
    wOut.metadata.totalOrders = 2 ∧
    wOut.metadata.rescheduledCount = (wOut.results.filter (·.wasRescheduled)).length ∧
    wOut.metadata.fixedCount = (wOut.results.filter (·.isFixed)).length ∧
    wResA ∈ [wResA] := by
  have h := reflow_results_follow_topological_order_and_metadata openCtx wcIndex1 false 0 0
    wOrders wOut wGraph (by decide) (by decide)
  refine ⟨?_, h.2.1, h.2.2.1, ?_⟩
  · rw [h.1]
    decide
  · exact h.2.2.2 [wResA] wResB [] (by decide) wNodeB (by decide) "a" (by decide)
      wResA (by decide) (by decide)

/-- Overwriting a present key swaps its contribution to `sumDeg`. -/
theorem sumDeg_mapSet_some (m : List (String × Int)) (k : String) (v old : Int)
    (h : mapGet m k = some old) :
    sumDeg (mapSet m k v) + old.toNat = sumDeg m + v.toNat := by
  induction m with
  | nil => simp [mapGet] at h
  | cons p rest ih =>
    obtain ⟨k', v'⟩ := p
    by_cases hk : k' = k
    · unfold mapGet at h
      rw [if_pos hk] at h
      have hv : v' = old := Option.some.inj h
      subst hv
      unfold mapSet
      rw [if_pos hk]
      unfold sumDeg
      simp only [List.map_cons, List.sum_cons]
      omega
    · unfold mapGet at h
      rw [if_neg hk] at h
      unfold mapSet
      rw [if_neg hk]
      unfold sumDeg
      simp only [List.map_cons, List.sum_cons]
      have := ih h
      unfold sumDeg at this
      omega

/-- Setting an absent key appends its contribution to `sumDeg`. -/
theorem sumDeg_mapSet_none (m : List (String × Int)) (k : String) (v : Int)
    (h : mapGet m k = none) :
    sumDeg (mapSet m k v) = sumDeg m + v.toNat := by
  induction m with
  | nil => simp [sumDeg, mapSet]
  | cons p rest ih =>
    obtain ⟨k', v'⟩ := p
    unfold mapGet at h
    by_cases hk : k' = k
    · rw [if_pos hk] at h
      exact Option.noConfusion h
    · rw [if_neg hk] at h
      unfold mapSet
      rw [if_neg hk]
      unfold sumDeg
      simp only [List.map_cons, List.sum_cons]
      have := ih h
      unfold sumDeg at this
      omega

/-- Processing dependents strictly controls the loop measure: every enqueued
id pays for itself out of the total positive in-degree. -/
theorem processDependents_measure (deps : List String) :
    ∀ (inDegrees : List (String × Int)) (queue : List String),
      sumDeg (processDependents deps inDegrees queue).1 +
        ((processDependents deps inDegrees queue).2).length ≤
      sumDeg inDegrees + queue.length := by
  induction deps with
  | nil =>
    intro inDegrees queue
    simp [processDependents]
  | cons t ts ih =>
    intro inDegrees queue
    rw [show processDependents (t :: ts) inDegrees queue =
        processDependents ts (mapSet inDegrees t ((mapGet inDegrees t).getD 0 - 1))
          (if (mapGet inDegrees t).getD 0 - 1 = 0 then queue ++ [t] else queue) from rfl]
    refine le_trans (ih _ _) ?_
    cases hg : mapGet inDegrees t with
    | none =>
      simp only [Option.getD_none]
      have hset := sumDeg_mapSet_none inDegrees t ((0 : Int) - 1) hg
      rw [if_neg (by decide), hset]
      simp
    | some old =>
      simp only [Option.getD_some]
      have hset := sumDeg_mapSet_some inDegrees t (old - 1) old hg
      by_cases h1 : old - 1 = 0
      · rw [if_pos h1]
        simp only [List.length_append, List.length_singleton]
        have hold : old = 1 := by omega
        subst hold
        omega
      · rw [if_neg h1]
        omega

/-- The Kahn loop on an empty queue is inert, whatever the fuel. -/
theorem kahnLoop_nil_queue (nodes : List (String × GraphNode)) :
    ∀ (fuel : Nat) (inDegrees : List (String × Int)) (result : List WorkOrder),
      kahnLoop nodes fuel inDegrees [] result = (inDegrees, result) := by
  intro fuel inDegrees result
  cases fuel with
  | zero => rfl
  | succ f => rfl

/-- Any fuel at least `sumDeg inDegrees + queue.length` runs the Kahn loop to
completion: the result no longer depends on the fuel, so the bound chosen in
`topologicalSort` computes the limit of the `while` loop. -/
theorem kahnLoop_fuel_irrelevant (nodes : List (String × GraphNode)) :
    ∀ (n fuel1 fuel2 : Nat) (inDegrees : List (String × Int)) (queue : List String)
      (result : List WorkOrder),
      sumDeg inDegrees + queue.length ≤ n → n ≤ fuel1 → n ≤ fuel2 →
      kahnLoop nodes fuel1 inDegrees queue result =
        kahnLoop nodes fuel2 inDegrees queue result := by
  intro n
  induction n with
  | zero =>
    intro fuel1 fuel2 inDegrees queue result hmu h1 h2
    have hq : queue = [] := List.length_eq_zero.mp (by omega)
    subst hq
    rw [kahnLoop_nil_queue, kahnLoop_nil_queue]
  | succ n ih =>
    intro fuel1 fuel2 inDegrees queue result hmu h1 h2
    cases fuel1 with
    | zero => omega
    | succ f1 =>
      cases fuel2 with
      | zero => omega
      | succ f2 =>
        cases hs : sortReady nodes queue with
        | nil =>
          have e1 : kahnLoop nodes (f1 + 1) inDegrees queue result = (inDegrees, result) := by
            conv_lhs => unfold kahnLoop
            rw [hs]
          have e2 : kahnLoop nodes (f2 + 1) inDegrees queue result = (inDegrees, result) := by
            conv_lhs => unfold kahnLoop
            rw [hs]
          rw [e1, e2]
        | cons h rest =>
          have hlen : queue.length = rest.length + 1 := by
            have hperm := sortReady_perm nodes queue
            rw [hs] at hperm
            have hpl := hperm.length_eq
            simp at hpl
            omega
          cases hn : mapGet nodes h with
          | none =>
            have e1 : kahnLoop nodes (f1 + 1) inDegrees queue result = (inDegrees, result) := by
              conv_lhs => unfold kahnLoop
              rw [hs]
              simp only [hn]
            have e2 : kahnLoop nodes (f2 + 1) inDegrees queue result = (inDegrees, result) := by
              conv_lhs => unfold kahnLoop
              rw [hs]
              simp only [hn]
            rw [e1, e2]
          | some node =>
            have e1 : kahnLoop nodes (f1 + 1) inDegrees queue result =
                kahnLoop nodes f1 (processDependents node.dependents inDegrees rest).1
                  (processDependents node.dependents inDegrees rest).2
                  (result ++ [node.workOrder]) := by
              conv_lhs => unfold kahnLoop
              rw [hs]
              simp only [hn]
            have e2 : kahnLoop nodes (f2 + 1) inDegrees queue result =
                kahnLoop nodes f2 (processDependents node.dependents inDegrees rest).1
                  (processDependents node.dependents inDegrees rest).2
                  (result ++ [node.workOrder]) := by
              conv_lhs => unfold kahnLoop
              rw [hs]
              simp only [hn]
            rw [e1, e2]
            apply ih
            · have hm := processDependents_measure node.dependents inDegrees rest
              omega
            · omega
            · omega
